import Mathlib

set_option maxRecDepth 8000

/-!
Shallow embedding of the env-sync repository: the parser in
src/lib/parse.rs (EnvFile / EnvEntry / EnvVariable / EnvComment together
with their TryFrom and Display impls) and the merge engine in
src/lib/sync.rs (EnvSync::sync).  Rust strings are modelled as lists of
characters, and the str operations the source uses (trim, split_once,
lines, strip_prefix) are modelled explicitly below.
-/

abbrev Str := List Char

/-- Rust char::is_whitespace (the Unicode White_Space property). -/
def isWS (c : Char) : Bool :=
  let n := c.toNat
  n = 0x09 || n = 0x0A || n = 0x0B || n = 0x0C || n = 0x0D || n = 0x20 ||
  n = 0x85 || n = 0xA0 || n = 0x1680 || (0x2000 ≤ n && n ≤ 0x200A) ||
  n = 0x2028 || n = 0x2029 || n = 0x202F || n = 0x205F || n = 0x3000

/-- Rust str::trim_start. -/
def trimStart : Str → Str
  | [] => []
  | c :: cs => if isWS c then trimStart cs else c :: cs

/-- Rust str::trim_end. -/
def trimEnd : Str → Str
  | [] => []
  | c :: cs => if (trimEnd cs).isEmpty && isWS c then [] else c :: trimEnd cs

/-- Rust str::trim. -/
def trim (s : Str) : Str := trimEnd (trimStart s)

/-- Rust str::split_once with a single-character pattern: split at the
first occurrence of the character, if any. -/
def splitOnce (a : Char) : Str → Option (Str × Str)
  | [] => none
  | c :: cs =>
    if c = a then some ([], cs)
    else
      match splitOnce a cs with
      | some (p, r) => some (c :: p, r)
      | none => none

/-- Split at every newline character, keeping empty segments (so the
result always has one more element than the number of newlines).  Helper
for modelling Rust str::lines. -/
def splitNl : Str → List Str
  | [] => [[]]
  | c :: cs =>
    match splitNl cs with
    | [] => [[c]]
    | l :: ls => if c = '\n' then [] :: l :: ls else (c :: l) :: ls

/-- Strip one trailing carriage return, as Rust str::lines does on every
newline-terminated segment. -/
def stripCr (l : Str) : Str := if l.getLast? = some '\r' then l.dropLast else l

/-- Rust str::lines: terminator-style split on the newline character; a
carriage return is stripped from the end of each newline-terminated
segment (so "\r\n" endings are handled), while a final segment that is
not newline-terminated is kept verbatim. -/
def lines (s : Str) : List Str :=
  (splitNl s).dropLast.map stripCr ++
    (match (splitNl s).getLast? with
     | some [] => []
     | some l => [l]
     | none => [])

deriving instance DecidableEq for Except

/-- ParseError from src/lib/parse.rs. -/
inductive ParseError where
  | InvalidLine (line : Str)
  deriving DecidableEq, Repr

/-- EnvVariable from src/lib/parse.rs.  A comment is stored as the text
after the leading marker, exactly as the EnvComment newtype stores it. -/
structure EnvVariable where
  key : Str
  value : Str
  preceding_comments : List Str
  inline_comment : Option Str
  deriving DecidableEq, Repr

/-- EnvEntry from src/lib/parse.rs. -/
inductive EnvEntry where
  | Variable (v : EnvVariable)
  | OrphanComment (c : Str)
  | EmptyLine
  deriving DecidableEq, Repr

/-- EnvFile from src/lib/parse.rs. -/
structure EnvFile where
  entries : List EnvEntry
  deriving DecidableEq, Repr

namespace EnvComment

/-- EnvComment::try_from: trim, then strip the leading comment marker. -/
def tryFrom (s : Str) : Except ParseError Str :=
  match trim s with
  | '#' :: content => .ok content
  | _ => .error (.InvalidLine s)

/-- The Display impl for EnvComment: re-prefix the marker. -/
def display (c : Str) : Str := '#' :: c

end EnvComment

namespace EnvVariable

/-- EnvVariable::try_from: split at the first assignment operator; the
key is trimmed; the value part is split at the first comment marker into
a trimmed value and an untouched inline-comment remainder. -/
def tryFrom (s : Str) : Except ParseError EnvVariable :=
  match splitOnce '=' s with
  | some (key, value_part) =>
    match splitOnce '#' value_part with
    | some (value, comment) =>
      .ok { key := trim key, value := trim value,
            preceding_comments := [], inline_comment := some comment }
    | none =>
      .ok { key := trim key, value := trim value_part,
            preceding_comments := [], inline_comment := none }
  | none => .error (.InvalidLine s)

/-- The Display impl for EnvVariable: preceding comments each on their
own line, then key, assignment operator, value, and optionally one space
plus the displayed inline comment. -/
def display (v : EnvVariable) : Str :=
  (v.preceding_comments.map (fun c => EnvComment.display c ++ ['\n'])).flatten
  ++ v.key ++ '=' :: v.value
  ++ (match v.inline_comment with
      | some c => ' ' :: EnvComment.display c
      | none => [])

end EnvVariable

namespace EnvEntry

/-- EnvEntry::try_from: classify one line after trimming it (the Rust
code binds the trimmed line once; here it is written out each time). -/
def tryFrom (s : Str) : Except ParseError EnvEntry :=
  if (trim s).isEmpty then .ok .EmptyLine
  else if (trim s).head? = some '#' then
    match EnvComment.tryFrom (trim s) with
    | .ok c => .ok (.OrphanComment c)
    | .error e => .error e
  else
    match EnvVariable.tryFrom (trim s) with
    | .ok v => .ok (.Variable v)
    | .error e => .error e

/-- The Display impl for EnvEntry: each entry is newline-terminated. -/
def display : EnvEntry → Str
  | .Variable v => v.display ++ ['\n']
  | .OrphanComment c => EnvComment.display c ++ ['\n']
  | .EmptyLine => ['\n']

end EnvEntry

namespace EnvFile

/-- The loop of EnvFile::try_from: the remaining lines together with the
buffer of pending (not yet attached) comments. -/
def parseLines : List Str → List Str → Except ParseError (List EnvEntry)
  | [], pending => .ok (pending.map .OrphanComment)
  | l :: ls, pending =>
    match EnvEntry.tryFrom l with
    | .error e => .error e
    | .ok (.Variable v) =>
      match parseLines ls [] with
      | .ok rest => .ok (.Variable { v with preceding_comments := pending } :: rest)
      | .error e => .error e
    | .ok (.OrphanComment c) => parseLines ls (pending ++ [c])
    | .ok .EmptyLine =>
      match parseLines ls [] with
      | .ok rest => .ok (pending.map .OrphanComment ++ .EmptyLine :: rest)
      | .error e => .error e

/-- EnvFile::try_from in src/lib/parse.rs. -/
def tryFrom (s : Str) : Except ParseError EnvFile :=
  match parseLines (lines s) [] with
  | .ok entries => .ok { entries := entries }
  | .error e => .error e

/-- The Display impl for EnvFile: render every entry in sequence. -/
def display (f : EnvFile) : Str := (f.entries.map EnvEntry.display).flatten

/-- EnvFile::get: the first Variable entry with the given key. -/
def get (f : EnvFile) (key : Str) : Option EnvVariable :=
  f.entries.findSome? fun e =>
    match e with
    | .Variable v => if v.key = key then some v else none
    | _ => none

/-- The sequence of Variable keys of a document, in entry order. -/
def keys (f : EnvFile) : List Str :=
  f.entries.filterMap fun e =>
    match e with
    | .Variable v => some v.key
    | _ => none

end EnvFile

/-- EnvSyncError from src/lib/sync.rs (the payloads of the io-error
variants are irrelevant to the pure core and are dropped). -/
inductive EnvSyncError where
  | LocalIo
  | LocalParse (e : ParseError)
  | TemplateIo
  | TemplateParse (e : ParseError)
  | Write
  | CreateLocal
  | TemplateNotFound
  deriving DecidableEq

namespace EnvSync

/-- The body of the per-template-variable step of EnvSync::sync: look up
the key in the local document and apply the three override rules. -/
def syncVar (lcl : EnvFile) (tv : EnvVariable) : EnvVariable :=
  match lcl.get tv.key with
  | none => tv
  | some lv =>
    { key := tv.key
      value := if tv.value.isEmpty && !lv.value.isEmpty then lv.value else tv.value
      inline_comment :=
        if tv.inline_comment.isNone && lv.inline_comment.isSome then lv.inline_comment
        else tv.inline_comment
      preceding_comments :=
        if tv.preceding_comments.isEmpty && !lv.preceding_comments.isEmpty then
          lv.preceding_comments
        else tv.preceding_comments }

/-- One entry of the template under EnvSync::sync: non-Variable entries
pass through. -/
def syncEntry (lcl : EnvFile) : EnvEntry → EnvEntry
  | .Variable tv => .Variable (syncVar lcl tv)
  | e => e

/-- The pure document transformation performed by EnvSync::sync. -/
def merge (lcl template : EnvFile) : EnvFile :=
  { entries := template.entries.map (syncEntry lcl) }

/-- EnvSync::sync in src/lib/sync.rs: mutates the template in place and
returns Ok(template); no error is ever constructed. -/
def sync (lcl template : EnvFile) : Except EnvSyncError EnvFile :=
  .ok (merge lcl template)

end EnvSync

/-!
Auxiliary definitions used by the verification: the single-line view of
serialized entries, well-formedness invariants characterizing parser
output, an injector describing how a pending comment buffer lands in the
produced entry list, a declarative (spec-side) description of comment
attachment, and vocabulary for the failure and line-separator claims.
-/

/-- The assignment line a Variable renders to (its Display output without
the preceding comments). -/
def varLine (v : EnvVariable) : Str :=
  v.key ++ '=' :: v.value ++
    (match v.inline_comment with
     | some c => ' ' :: EnvComment.display c
     | none => [])

/-- The physical lines an entry renders to, without terminators. -/
def entryLines : EnvEntry → List Str
  | .Variable v => v.preceding_comments.map EnvComment.display ++ [varLine v]
  | .OrphanComment c => [EnvComment.display c]
  | .EmptyLine => [[]]

/-- The line-level classification of an entry: a Variable contributes its
preceding comment lines and then its own assignment line. -/
def entryClasses : EnvEntry → List EnvEntry
  | .Variable v =>
    v.preceding_comments.map .OrphanComment ++
      [.Variable { v with preceding_comments := [] }]
  | .OrphanComment c => [.OrphanComment c]
  | .EmptyLine => [.EmptyLine]

/-- Classify every line of a document independently (EnvEntry::try_from
per line), failing on the first invalid line. -/
def lineClasses : List Str → Except ParseError (List EnvEntry)
  | [] => .ok []
  | l :: ls =>
    match EnvEntry.tryFrom l, lineClasses ls with
    | .ok e, .ok es => .ok (e :: es)
    | .error e, _ => .error e
    | _, .error e => .error e

/-- How a buffer of pending comments lands in front of an entry list: if
the list starts with a Variable they become (additional) preceding
comments of that Variable, otherwise they are flushed as one
OrphanComment entry each. -/
def inject (p : List Str) : List EnvEntry → List EnvEntry
  | .Variable v :: rest =>
    .Variable { v with preceding_comments := p ++ v.preceding_comments } :: rest
  | es => p.map .OrphanComment ++ es

/-- Modelled on the spec's comment-attachment policy: the
preceding_comments of a Variable are exactly the maximal run of comment
lines immediately above it, with no intervening blank line or other
variable; a comment run not immediately followed by a variable stays as
one OrphanComment per comment line, at the position where the run was
cut off. The input is the per-line classification, the output the entry
list of the document. -/
def specAttach : List EnvEntry → List EnvEntry
  | [] => []
  | .EmptyLine :: rest => .EmptyLine :: specAttach rest
  | .Variable v :: rest => .Variable v :: specAttach rest
  | .OrphanComment c :: rest =>
    match specAttach rest with
    | .Variable v :: tail =>
      .Variable { v with preceding_comments := c :: v.preceding_comments } :: tail
    | other => .OrphanComment c :: other

/-- A line is invalid exactly when it is non-empty after trimming, is not
a comment line, and has no assignment operator. -/
def badLine (l : Str) : Bool :=
  !(trim l).isEmpty && !((trim l).head? = some '#') && !(trim l).contains '='

/-- Join a list of line contents with a given separator (used to state
the line-separator normalization claim). -/
def sepJoin (sep : Str) : List Str → Str
  | [] => []
  | [l] => l
  | l :: ls => l ++ sep ++ sepJoin sep ls

/-- No newline character occurs in the string. -/
def NoNl (s : Str) : Prop := '\n' ∉ s

instance (s : Str) : Decidable (NoNl s) :=
  inferInstanceAs (Decidable ('\n' ∉ s))

/-- Well-formed stored comment text: produced by the parser, so it spans
a single line and carries no trailing whitespace (the line it came from
was trimmed). -/
def CWF (c : Str) : Prop := NoNl c ∧ trimEnd c = c

/-- Well-formed Variable fields, as produced by the parser: key and
value are trimmed single-line strings, the key contains no assignment
operator and does not start with the comment marker, the value contains
no comment marker, and all comments are well-formed. -/
structure VWF (v : EnvVariable) : Prop where
  keyTrim : trim v.key = v.key
  keyNoNl : NoNl v.key
  keyNoEq : '=' ∉ v.key
  keyNoHash : v.key.head? ≠ some '#'
  valTrim : trim v.value = v.value
  valNoNl : NoNl v.value
  valNoHash : '#' ∉ v.value
  icWF : ∀ c, v.inline_comment = some c → CWF c
  pcWF : ∀ c ∈ v.preceding_comments, CWF c

/-- The entry list does not start with a Variable entry. -/
def notVarHead : List EnvEntry → Prop
  | .Variable _ :: _ => False
  | _ => True

/-- Well-formed entry lists, the invariant of parser output: every field
satisfies its local invariant and an OrphanComment entry is never
directly followed by a Variable entry (the parser only flushes orphans
before an empty line or at end of input). -/
inductive WFE : List EnvEntry → Prop where
  | nil : WFE []
  | var {v rest} : VWF v → WFE rest → WFE (.Variable v :: rest)
  | empty {rest} : WFE rest → WFE (.EmptyLine :: rest)
  | orphan {c rest} : CWF c → notVarHead rest → WFE rest →
      WFE (.OrphanComment c :: rest)

/-- The per-entry matcher used by EnvFile::get (named so proofs can
manipulate it). -/
def keyMatch (key : Str) (e : EnvEntry) : Option EnvVariable :=
  match e with
  | .Variable v => if v.key = key then some v else none
  | _ => none

/-- No carriage return in any field of an entry. -/
def entryNoCr : EnvEntry → Prop
  | .Variable v =>
    '\r' ∉ v.key ∧ '\r' ∉ v.value ∧
    (∀ c ∈ v.preceding_comments, '\r' ∉ c) ∧
    (∀ c, v.inline_comment = some c → '\r' ∉ c)
  | .OrphanComment c => '\r' ∉ c
  | .EmptyLine => True

/-! Basic facts about the modelled string primitives. -/

theorem trimStart_length_le (s : Str) : (trimStart s).length ≤ s.length := by
  induction s with
  | nil => simp [trimStart]
  | cons c cs ih =>
    by_cases h : isWS c
    · simp [trimStart, h]
      omega
    · simp [trimStart, h]

theorem trimStart_eq_of_length {s : Str} (h : (trimStart s).length = s.length) :
    trimStart s = s := by
  induction s with
  | nil => rfl
  | cons c cs ih =>
    by_cases hw : isWS c
    · rw [trimStart, if_pos hw] at h ⊢
      have := trimStart_length_le cs
      simp at h
      omega
    · rw [trimStart, if_neg hw]

theorem trimEnd_length_le (s : Str) : (trimEnd s).length ≤ s.length := by
  induction s with
  | nil => simp [trimEnd]
  | cons c cs ih =>
    rw [trimEnd]
    split
    · simp
    · simpa using ih

theorem trimEnd_eq_of_length {s : Str} (h : (trimEnd s).length = s.length) :
    trimEnd s = s := by
  induction s with
  | nil => rfl
  | cons c cs ih =>
    rw [trimEnd] at h ⊢
    split at h
    · simp at h
    · simp at h
      rw [if_neg (by assumption), ih h]

theorem head?_trimStart_not_ws {s : Str} {c : Char}
    (h : (trimStart s).head? = some c) : isWS c = false := by
  induction s with
  | nil => simp [trimStart] at h
  | cons a as ih =>
    by_cases hw : isWS a
    · rw [trimStart, if_pos hw] at h
      exact ih h
    · rw [trimStart, if_neg hw] at h
      simp at h
      rw [← h]
      simpa using hw

theorem trimStart_cons_not_ws {c : Char} {cs : Str} (h : isWS c = false) :
    trimStart (c :: cs) = c :: cs := by
  simp [trimStart, h]

theorem trimStart_idem (s : Str) : trimStart (trimStart s) = trimStart s := by
  induction s with
  | nil => rfl
  | cons a as ih =>
    by_cases hw : isWS a
    · rw [trimStart, if_pos hw, ih]
    · rw [trimStart, if_neg hw, trimStart, if_neg hw]

theorem trimEnd_getLast_not_ws {s : Str} {c : Char}
    (h : (trimEnd s).getLast? = some c) : isWS c = false := by
  induction s with
  | nil => simp [trimEnd] at h
  | cons a as ih =>
    rw [trimEnd] at h
    split at h
    · simp at h
    · rename_i hcond
      cases hE : trimEnd as with
      | nil =>
        rw [hE] at h
        simp at h
        rw [hE] at hcond
        simp at hcond
        rw [← h]
        simpa using hcond
      | cons b bs =>
        rw [hE] at h
        rw [List.getLast?_cons_cons] at h
        rw [← hE] at h
        exact ih h

theorem trimEnd_eq_self_of_getLast {s : Str}
    (h : ∀ c, s.getLast? = some c → isWS c = false) : trimEnd s = s := by
  induction s with
  | nil => rfl
  | cons a as ih =>
    cases as with
    | nil =>
      have ha := h a (by simp)
      simp [trimEnd, ha]
    | cons b bs =>
      have ih2 : trimEnd (b :: bs) = b :: bs := by
        apply ih
        intro c hc
        exact h c (by rw [List.getLast?_cons_cons]; exact hc)
      rw [trimEnd, ih2]
      simp

theorem trimEnd_idem (s : Str) : trimEnd (trimEnd s) = trimEnd s :=
  trimEnd_eq_self_of_getLast (fun _ h => trimEnd_getLast_not_ws h)

theorem head_not_ws_of_trimStart_fix {s : Str} {c : Char}
    (hfix : trimStart s = s) (h : s.head? = some c) : isWS c = false :=
  head?_trimStart_not_ws (by rw [hfix]; exact h)

theorem trimEnd_head? (s : Str) : trimEnd s = [] ∨ (trimEnd s).head? = s.head? := by
  cases s with
  | nil => left; rfl
  | cons a as =>
    rw [trimEnd]
    split
    · left; rfl
    · right; rfl

theorem trimStart_trimEnd_fix {s : Str} (h : trimStart s = s) :
    trimStart (trimEnd s) = trimEnd s := by
  cases hE : trimEnd s with
  | nil => rfl
  | cons c cs =>
    rcases trimEnd_head? s with h1 | h1
    · rw [h1] at hE; cases hE
    · rw [hE] at h1
      simp at h1
      exact trimStart_cons_not_ws (head_not_ws_of_trimStart_fix h h1.symm)

theorem trim_idem (s : Str) : trim (trim s) = trim s := by
  unfold trim
  rw [trimStart_trimEnd_fix (trimStart_idem s), trimEnd_idem]

theorem trim_fix_start {s : Str} (h : trim s = s) : trimStart s = s := by
  apply trimStart_eq_of_length
  have h1 := trimEnd_length_le (trimStart s)
  have h2 := trimStart_length_le s
  have h3 : (trim s).length = s.length := by rw [h]
  unfold trim at h3
  omega

theorem trim_fix_end {s : Str} (h : trim s = s) : trimEnd s = s := by
  have hs := trim_fix_start h
  unfold trim at h
  rw [hs] at h
  exact h

theorem mem_of_mem_trimStart {x : Char} {s : Str} (h : x ∈ trimStart s) : x ∈ s := by
  induction s with
  | nil => simp [trimStart] at h
  | cons a as ih =>
    by_cases hw : isWS a
    · rw [trimStart, if_pos hw] at h
      exact List.mem_cons_of_mem a (ih h)
    · rwa [trimStart, if_neg hw] at h

theorem mem_of_mem_trimEnd {x : Char} {s : Str} (h : x ∈ trimEnd s) : x ∈ s := by
  induction s with
  | nil => simp [trimEnd] at h
  | cons a as ih =>
    rw [trimEnd] at h
    split at h
    · simp at h
    · rcases List.mem_cons.mp h with h1 | h1
      · exact h1 ▸ List.mem_cons_self a as
      · exact List.mem_cons_of_mem a (ih h1)

theorem mem_of_mem_trim {x : Char} {s : Str} (h : x ∈ trim s) : x ∈ s :=
  mem_of_mem_trimStart (mem_of_mem_trimEnd h)

theorem mem_trimStart_of_not_ws {x : Char} (hx : isWS x = false) {s : Str}
    (h : x ∈ s) : x ∈ trimStart s := by
  induction s with
  | nil => simp at h
  | cons a as ih =>
    by_cases hw : isWS a
    · rw [trimStart, if_pos hw]
      rcases List.mem_cons.mp h with h1 | h1
      · rw [h1] at hx; rw [hx] at hw; simp at hw
      · exact ih h1
    · rwa [trimStart, if_neg hw]

theorem mem_trimEnd_of_not_ws {x : Char} (hx : isWS x = false) {s : Str}
    (h : x ∈ s) : x ∈ trimEnd s := by
  induction s with
  | nil => simp at h
  | cons a as ih =>
    rw [trimEnd]
    split
    · rename_i hcond
      simp at hcond
      exfalso
      rcases List.mem_cons.mp h with h1 | h1
      · rw [h1] at hx; rw [hx] at hcond; simp at hcond
      · have := ih h1
        rw [hcond.1] at this
        simp at this
    · rcases List.mem_cons.mp h with h1 | h1
      · exact h1 ▸ List.mem_cons_self a _
      · exact List.mem_cons_of_mem a (ih h1)

theorem mem_trim_of_not_ws {x : Char} (hx : isWS x = false) {s : Str}
    (h : x ∈ s) : x ∈ trim s :=
  mem_trimEnd_of_not_ws hx (mem_trimStart_of_not_ws hx h)

/-! Facts about splitOnce. -/

theorem splitOnce_eq_some {a : Char} {s p r : Str}
    (h : splitOnce a s = some (p, r)) : s = p ++ a :: r ∧ a ∉ p := by
  induction s generalizing p r with
  | nil => simp [splitOnce] at h
  | cons c cs ih =>
    rw [splitOnce] at h
    by_cases hc : c = a
    · rw [if_pos hc] at h
      simp at h
      obtain ⟨hp, hr⟩ := h
      subst hp
      subst hr
      subst hc
      simp
    · rw [if_neg hc] at h
      cases hs : splitOnce a cs with
      | none => rw [hs] at h; simp at h
      | some pr =>
        obtain ⟨p1, r1⟩ := pr
        rw [hs] at h
        simp at h
        obtain ⟨he, hr⟩ := h
        obtain ⟨hcs, hnp⟩ := ih hs
        constructor
        · rw [← he, hcs, ← hr]
          simp
        · rw [← he]
          simp [hnp]
          intro heq
          exact hc heq.symm

theorem splitOnce_of_not_mem {a : Char} {s : Str} (h : a ∉ s) :
    splitOnce a s = none := by
  induction s with
  | nil => rfl
  | cons c cs ih =>
    simp at h
    rw [splitOnce, if_neg (fun hc => h.1 hc.symm), ih h.2]

theorem splitOnce_append {a : Char} {p r : Str} (h : a ∉ p) :
    splitOnce a (p ++ a :: r) = some (p, r) := by
  induction p with
  | nil => simp [splitOnce]
  | cons c cs ih =>
    simp at h
    rw [List.cons_append, splitOnce, if_neg (fun hc => h.1 hc.symm),
      ih h.2]

/-! Facts about the merge engine. -/

theorem get_eq_findSome (f : EnvFile) (k : Str) :
    f.get k = f.entries.findSome? (keyMatch k) := rfl

theorem syncVar_key (lcl : EnvFile) (tv : EnvVariable) :
    (EnvSync.syncVar lcl tv).key = tv.key := by
  unfold EnvSync.syncVar
  cases lcl.get tv.key <;> rfl

theorem syncVar_self {lcl : EnvFile} {w : EnvVariable}
    (h : lcl.get w.key = some w) : EnvSync.syncVar lcl w = w := by
  unfold EnvSync.syncVar
  rw [h]
  have hic : (w.inline_comment.isNone && w.inline_comment.isSome) = false := by
    cases w.inline_comment <;> rfl
  simp [hic]

theorem keyMatch_sync (X : EnvFile) (k : Str) (e : EnvEntry) :
    keyMatch k (EnvSync.syncEntry X e) = (keyMatch k e).map (EnvSync.syncVar X) := by
  cases e with
  | Variable tv =>
    simp only [EnvSync.syncEntry, keyMatch, syncVar_key]
    by_cases hk : tv.key = k <;> simp [hk]
  | OrphanComment c => rfl
  | EmptyLine => rfl

theorem get_merge (X t : EnvFile) (k : Str) :
    (EnvSync.merge X t).get k = (t.get k).map (EnvSync.syncVar X) := by
  rw [get_eq_findSome, get_eq_findSome]
  show (t.entries.map (EnvSync.syncEntry X)).findSome? (keyMatch k) = _
  induction t.entries with
  | nil => rfl
  | cons e rest ih =>
    rw [List.map_cons, List.findSome?_cons, List.findSome?_cons, keyMatch_sync]
    cases hm : keyMatch k e with
    | none => simpa [hm] using ih
    | some w => simp [hm]

theorem mem_keys_of_var {tv : EnvVariable} {es : List EnvEntry}
    (h : .Variable tv ∈ es) : tv.key ∈ EnvFile.keys ⟨es⟩ := by
  unfold EnvFile.keys
  simp only [List.mem_filterMap]
  exact ⟨.Variable tv, h, rfl⟩

theorem nodup_get {es : List EnvEntry} {tv : EnvVariable}
    (hnd : (EnvFile.keys ⟨es⟩).Nodup) (hm : .Variable tv ∈ es) :
    EnvFile.get ⟨es⟩ tv.key = some tv := by
  induction es with
  | nil => simp at hm
  | cons e rest ih =>
    cases e with
    | Variable v =>
      have hkeys : EnvFile.keys ⟨.Variable v :: rest⟩ = v.key :: EnvFile.keys ⟨rest⟩ := rfl
      rw [hkeys, List.nodup_cons] at hnd
      rw [get_eq_findSome, List.findSome?_cons]
      rcases List.mem_cons.mp hm with h1 | h1
      · cases h1
        simp [keyMatch]
      · by_cases hk : v.key = tv.key
        · exfalso
          exact hnd.1 (hk ▸ mem_keys_of_var h1)
        · have := ih hnd.2 h1
          rw [get_eq_findSome] at this
          simpa [keyMatch, hk] using this
    | OrphanComment c =>
      have hkeys : EnvFile.keys ⟨.OrphanComment c :: rest⟩ = EnvFile.keys ⟨rest⟩ := rfl
      rw [hkeys] at hnd
      rcases List.mem_cons.mp hm with h1 | h1
      · cases h1
      · have := ih hnd h1
        rw [get_eq_findSome] at this
        rw [get_eq_findSome, List.findSome?_cons]
        simpa [keyMatch] using this
    | EmptyLine =>
      have hkeys : EnvFile.keys ⟨.EmptyLine :: rest⟩ = EnvFile.keys ⟨rest⟩ := rfl
      rw [hkeys] at hnd
      rcases List.mem_cons.mp hm with h1 | h1
      · cases h1
      · have := ih hnd h1
        rw [get_eq_findSome] at this
        rw [get_eq_findSome, List.findSome?_cons]
        simpa [keyMatch] using this

theorem syncVar_none {lcl : EnvFile} {tv : EnvVariable}
    (h : lcl.get tv.key = none) : EnvSync.syncVar lcl tv = tv := by
  unfold EnvSync.syncVar
  rw [h]

theorem syncVar_some {lcl : EnvFile} {tv lv : EnvVariable}
    (h : lcl.get tv.key = some lv) :
    EnvSync.syncVar lcl tv =
      { key := tv.key
        value := if tv.value.isEmpty && !lv.value.isEmpty then lv.value else tv.value
        inline_comment :=
          if tv.inline_comment.isNone && lv.inline_comment.isSome then lv.inline_comment
          else tv.inline_comment
        preceding_comments :=
          if tv.preceding_comments.isEmpty && !lv.preceding_comments.isEmpty then
            lv.preceding_comments
          else tv.preceding_comments } := by
  unfold EnvSync.syncVar
  rw [h]

theorem syncVar_step {X R : EnvFile} {tv : EnvVariable}
    (h : R.get tv.key = some (EnvSync.syncVar X tv)) :
    EnvSync.syncVar R tv = EnvSync.syncVar X tv := by
  cases hX : X.get tv.key with
  | none =>
    rw [syncVar_none hX] at h ⊢
    exact syncVar_self h
  | some lv =>
    rw [syncVar_some hX] at h
    rw [syncVar_some h, syncVar_some hX]
    by_cases h1 : tv.value.isEmpty <;>
      by_cases h2 : lv.value.isEmpty <;>
        by_cases h3 : tv.inline_comment.isNone <;>
          by_cases h4 : lv.inline_comment.isSome <;>
            by_cases h5 : tv.preceding_comments.isEmpty <;>
              by_cases h6 : lv.preceding_comments.isEmpty <;>
                simp_all

theorem merge_keys (lcl t : EnvFile) : (EnvSync.merge lcl t).keys = t.keys := by
  show ((t.entries.map (EnvSync.syncEntry lcl)).filterMap _) = _
  rw [List.filterMap_map]
  apply List.filterMap_congr
  intro e _
  cases e with
  | Variable tv => simp [EnvSync.syncEntry, Function.comp, syncVar_key]
  | OrphanComment c => rfl
  | EmptyLine => rfl

theorem merge_entries_getElem (lcl t : EnvFile) (i : Nat) :
    (EnvSync.merge lcl t).entries[i]? = t.entries[i]?.map (EnvSync.syncEntry lcl) := by
  show (t.entries.map (EnvSync.syncEntry lcl))[i]? = _
  rw [List.getElem?_map]

theorem merge_self {D : EnvFile} (h : D.keys.Nodup) : EnvSync.merge D D = D := by
  have hent : D.entries.map (EnvSync.syncEntry D) = D.entries := by
    have : ∀ e ∈ D.entries, EnvSync.syncEntry D e = id e := by
      intro e he
      cases e with
      | Variable tv =>
        have hg : D.get tv.key = some tv := nodup_get h he
        simp [EnvSync.syncEntry, syncVar_self hg]
      | OrphanComment c => rfl
      | EmptyLine => rfl
    rw [List.map_congr_left this, List.map_id]
  show EnvFile.mk (D.entries.map (EnvSync.syncEntry D)) = D
  rw [hent]

theorem merge_idem (X t : EnvFile) (h : t.keys.Nodup) :
    EnvSync.merge (EnvSync.merge X t) t = EnvSync.merge X t := by
  show EnvFile.mk (t.entries.map (EnvSync.syncEntry (EnvSync.merge X t))) = _
  have : ∀ e ∈ t.entries,
      EnvSync.syncEntry (EnvSync.merge X t) e = EnvSync.syncEntry X e := by
    intro e he
    cases e with
    | Variable tv =>
      have hg : (EnvSync.merge X t).get tv.key = some (EnvSync.syncVar X tv) := by
        rw [get_merge, nodup_get h he]
        rfl
      simp [EnvSync.syncEntry, syncVar_step hg]
    | OrphanComment c => rfl
    | EmptyLine => rfl
  rw [List.map_congr_left this]
  rfl

/-! Facts about line splitting. -/

theorem getLast?_cons_ne {α : Type _} {a : α} {l : List α} (h : l ≠ []) :
    (a :: l).getLast? = l.getLast? := by
  cases l with
  | nil => exact absurd rfl h
  | cons b bs => exact List.getLast?_cons_cons

theorem splitNl_ne_nil (s : Str) : splitNl s ≠ [] := by
  induction s with
  | nil => simp [splitNl]
  | cons c cs ih =>
    rw [splitNl]
    cases h : splitNl cs with
    | nil => simp
    | cons l ls => by_cases hc : c = '\n' <;> simp [hc]

theorem splitNl_of_no_nl {l : Str} (h : '\n' ∉ l) : splitNl l = [l] := by
  induction l with
  | nil => rfl
  | cons c cs ih =>
    simp at h
    have hc : ¬ c = '\n' := fun hc => h.1 hc.symm
    rw [splitNl, ih h.2]
    simp [hc]

theorem splitNl_cons_nl {l t : Str} (h : '\n' ∉ l) :
    splitNl (l ++ '\n' :: t) = l :: splitNl t := by
  induction l with
  | nil =>
    rw [List.nil_append, splitNl]
    cases ht : splitNl t with
    | nil => exact absurd ht (splitNl_ne_nil t)
    | cons a as => simp
  | cons c cs ih =>
    simp at h
    have hc : ¬ c = '\n' := fun hc => h.1 hc.symm
    rw [List.cons_append, splitNl, ih h.2]
    simp [hc]

theorem splitNl_cons_eq {c : Char} {cs : Str} {a : Str} {as : List Str}
    (h : splitNl cs = a :: as) :
    splitNl (c :: cs) =
      if c = '\n' then [] :: a :: as else (c :: a) :: as := by
  rw [splitNl, h]

theorem splitNl_mem_no_nl {s : Str} : ∀ l ∈ splitNl s, '\n' ∉ l := by
  induction s with
  | nil =>
    intro l hl
    simp [splitNl] at hl
    simp [hl]
  | cons c cs ih =>
    intro l hl
    cases h : splitNl cs with
    | nil => exact absurd h (splitNl_ne_nil cs)
    | cons a as =>
      rw [splitNl_cons_eq h] at hl
      by_cases hc : c = '\n'
      · rw [if_pos hc] at hl
        rcases List.mem_cons.mp hl with h1 | h1
        · simp [h1]
        · exact ih l (h ▸ h1)
      · rw [if_neg hc] at hl
        rcases List.mem_cons.mp hl with h1 | h1
        · subst h1
          simp
          exact ⟨fun he => hc he.symm, ih a (h ▸ List.mem_cons_self a as)⟩
        · exact ih l (h ▸ List.mem_cons_of_mem a h1)

theorem splitNl_mem_subset {s l : Str} {x : Char} (hl : l ∈ splitNl s)
    (hx : x ∈ l) : x ∈ s := by
  induction s generalizing l with
  | nil =>
    simp [splitNl] at hl
    rw [hl] at hx
    simp at hx
  | cons c cs ih =>
    cases h : splitNl cs with
    | nil => exact absurd h (splitNl_ne_nil cs)
    | cons a as =>
      rw [splitNl_cons_eq h] at hl
      by_cases hc : c = '\n'
      · rw [if_pos hc] at hl
        rcases List.mem_cons.mp hl with h1 | h1
        · rw [h1] at hx; simp at hx
        · exact List.mem_cons_of_mem c (ih (h ▸ h1) hx)
      · rw [if_neg hc] at hl
        rcases List.mem_cons.mp hl with h1 | h1
        · subst h1
          rcases List.mem_cons.mp hx with h2 | h2
          · exact h2 ▸ List.mem_cons_self c cs
          · exact List.mem_cons_of_mem c (ih (h ▸ List.mem_cons_self a as) h2)
        · exact List.mem_cons_of_mem c (ih (h ▸ List.mem_cons_of_mem a h1) hx)

theorem mem_of_mem_stripCr {l : Str} {x : Char} (h : x ∈ stripCr l) : x ∈ l := by
  unfold stripCr at h
  split at h
  · exact List.mem_of_mem_dropLast h
  · exact h

theorem stripCr_no_nl {l : Str} (h : '\n' ∉ l) : '\n' ∉ stripCr l :=
  fun hx => h (mem_of_mem_stripCr hx)

theorem lines_mem_no_nl {s : Str} : ∀ l ∈ lines s, '\n' ∉ l := by
  intro l hl
  unfold lines at hl
  rcases List.mem_append.mp hl with h1 | h1
  · rcases List.mem_map.mp h1 with ⟨a, ha, rfl⟩
    exact stripCr_no_nl (splitNl_mem_no_nl a (List.mem_of_mem_dropLast ha))
  · rcases hg : (splitNl s).getLast? with _ | g
    · rw [hg] at h1; simp at h1
    · have hgm : g ∈ splitNl s := List.mem_of_mem_getLast? hg
      rw [hg] at h1
      cases g with
      | nil => simp at h1
      | cons a as =>
        simp at h1
        exact h1 ▸ splitNl_mem_no_nl _ hgm

theorem lines_mem_subset {s l : Str} {x : Char} (hl : l ∈ lines s)
    (hx : x ∈ l) : x ∈ s := by
  unfold lines at hl
  rcases List.mem_append.mp hl with h1 | h1
  · rcases List.mem_map.mp h1 with ⟨a, ha, rfl⟩
    exact splitNl_mem_subset (List.mem_of_mem_dropLast ha) (mem_of_mem_stripCr hx)
  · rcases hg : (splitNl s).getLast? with _ | g
    · rw [hg] at h1; simp at h1
    · have hgm : g ∈ splitNl s := List.mem_of_mem_getLast? hg
      rw [hg] at h1
      cases g with
      | nil => simp at h1
      | cons a as =>
        simp at h1
        exact splitNl_mem_subset hgm (h1 ▸ hx)

theorem lines_cons_nl {l t : Str} (h : '\n' ∉ l) :
    lines (l ++ '\n' :: t) = stripCr l :: lines t := by
  unfold lines
  rw [splitNl_cons_nl h]
  rw [List.dropLast_cons_of_ne_nil (splitNl_ne_nil t),
    getLast?_cons_ne (splitNl_ne_nil t)]
  simp

theorem lines_of_no_nl_ne_nil {l : Str} (h : '\n' ∉ l) (hne : l ≠ []) :
    lines l = [l] := by
  unfold lines
  rw [splitNl_of_no_nl h]
  cases l with
  | nil => exact absurd rfl hne
  | cons a as => simp

/-! Classification of single lines by EnvEntry::try_from. -/

theorem splitOnce_none_not_mem {a : Char} {s : Str} (h : splitOnce a s = none) :
    a ∉ s := by
  induction s with
  | nil => simp
  | cons c cs ih =>
    rw [splitOnce] at h
    by_cases hc : c = a
    · rw [if_pos hc] at h; simp at h
    · rw [if_neg hc] at h
      cases hs : splitOnce a cs with
      | none =>
        simp
        exact ⟨fun he => hc he.symm, ih hs⟩
      | some pr => rw [hs] at h; simp at h

theorem trimEnd_cons_inv {a : Char} {s : Str} (h : trimEnd (a :: s) = a :: s) :
    trimEnd s = s := by
  rw [trimEnd] at h
  split at h
  · cases h
  · exact (List.cons_injective h).symm ▸ List.tail_eq_of_cons_eq h ▸ rfl

theorem trimEnd_append_inv {a b : Str} (h : trimEnd (a ++ b) = a ++ b) :
    trimEnd b = b := by
  induction a with
  | nil => exact h
  | cons x xs ih =>
    rw [List.cons_append] at h
    exact ih (trimEnd_cons_inv h)

theorem head?_trim (s : Str) : trim s = [] ∨ (trim s).head? = (trimStart s).head? :=
  trimEnd_head? (trimStart s)

theorem tryFrom_empty_line {l : Str} (h : trim l = []) :
    EnvEntry.tryFrom l = .ok .EmptyLine := by
  simp [EnvEntry.tryFrom, h]

theorem tryFrom_comment_line {l cont : Str} (h : trim l = '#' :: cont) :
    EnvEntry.tryFrom l = .ok (.OrphanComment cont) := by
  have h2 : trim ('#' :: cont) = '#' :: cont := by rw [← h, trim_idem]
  simp [EnvEntry.tryFrom, h, EnvComment.tryFrom, h2]

theorem tryFrom_var_line_cm {l k vp v0 cm : Str}
    (hne : trim l ≠ []) (hhash : (trim l).head? ≠ some '#')
    (hsplit : splitOnce '=' (trim l) = some (k, vp))
    (hcm : splitOnce '#' vp = some (v0, cm)) :
    EnvEntry.tryFrom l =
      .ok (.Variable ⟨trim k, trim v0, [], some cm⟩) := by
  rw [EnvEntry.tryFrom, if_neg (by simpa [List.isEmpty_iff] using hne),
    if_neg hhash, EnvVariable.tryFrom, hsplit]
  simp [hcm]

theorem tryFrom_var_line_nocm {l k vp : Str}
    (hne : trim l ≠ []) (hhash : (trim l).head? ≠ some '#')
    (hsplit : splitOnce '=' (trim l) = some (k, vp))
    (hcm : splitOnce '#' vp = none) :
    EnvEntry.tryFrom l =
      .ok (.Variable ⟨trim k, trim vp, [], none⟩) := by
  rw [EnvEntry.tryFrom, if_neg (by simpa [List.isEmpty_iff] using hne),
    if_neg hhash, EnvVariable.tryFrom, hsplit]
  simp [hcm]

theorem tryFrom_bad_line {l : Str}
    (hne : trim l ≠ []) (hhash : (trim l).head? ≠ some '#')
    (hsplit : splitOnce '=' (trim l) = none) :
    EnvEntry.tryFrom l = .error (.InvalidLine (trim l)) := by
  rw [EnvEntry.tryFrom, if_neg (by simpa [List.isEmpty_iff] using hne),
    if_neg hhash, EnvVariable.tryFrom, hsplit]

theorem envComment_tryFrom_inv {s c : Str}
    (h : EnvComment.tryFrom s = .ok c) : trim s = '#' :: c := by
  unfold EnvComment.tryFrom at h
  split at h
  · rename_i heq
    simp at h
    rw [heq, h]
  · cases h

theorem envVariable_tryFrom_inv {s : Str} {v : EnvVariable}
    (h : EnvVariable.tryFrom s = .ok v) :
    ∃ k vp, splitOnce '=' s = some (k, vp) ∧
      v = (match splitOnce '#' vp with
           | some (v0, cm) => ⟨trim k, trim v0, [], some cm⟩
           | none => ⟨trim k, trim vp, [], none⟩) := by
  unfold EnvVariable.tryFrom at h
  split at h
  · rename_i k vp heq
    refine ⟨k, vp, heq, ?_⟩
    split at h <;> rename_i hcm
    · simp at h
      rw [← h]
    · simp at h
      rw [← h]
  · cases h

theorem tryFrom_empty_inv {l : Str}
    (h : EnvEntry.tryFrom l = .ok .EmptyLine) : trim l = [] := by
  unfold EnvEntry.tryFrom at h
  split at h
  · rename_i he
    simpa [List.isEmpty_iff] using he
  · split at h
    · split at h <;> cases h
    · split at h <;> cases h

theorem tryFrom_orphan_inv {l c : Str}
    (h : EnvEntry.tryFrom l = .ok (.OrphanComment c)) : trim l = '#' :: c := by
  unfold EnvEntry.tryFrom at h
  split at h
  · cases h
  · split at h
    · split at h <;> rename_i hc
      · simp at h
        have := envComment_tryFrom_inv hc
        rw [trim_idem] at this
        rw [this, h]
      · cases h
    · split at h <;> cases h

theorem tryFrom_var_inv {l : Str} {v : EnvVariable}
    (h : EnvEntry.tryFrom l = .ok (.Variable v)) :
    trim l ≠ [] ∧ (trim l).head? ≠ some '#' ∧
    ∃ k vp, splitOnce '=' (trim l) = some (k, vp) ∧
      v = (match splitOnce '#' vp with
           | some (v0, cm) => ⟨trim k, trim v0, [], some cm⟩
           | none => ⟨trim k, trim vp, [], none⟩) := by
  unfold EnvEntry.tryFrom at h
  split at h
  · cases h
  · rename_i he
    split at h
    · split at h <;> cases h
    · rename_i hhash
      refine ⟨by simpa [List.isEmpty_iff] using he, hhash, ?_⟩
      split at h <;> rename_i hv
      · simp at h
        obtain ⟨k, vp, hsplit, hveq⟩ := envVariable_tryFrom_inv hv
        exact ⟨k, vp, hsplit, h ▸ hveq⟩
      · cases h

theorem tryFrom_var_pcs_nil {l : Str} {v : EnvVariable}
    (h : EnvEntry.tryFrom l = .ok (.Variable v)) : v.preceding_comments = [] := by
  obtain ⟨-, -, k, vp, -, hveq⟩ := tryFrom_var_inv h
  rw [hveq]
  split <;> rfl

/-! The shape invariants of parser output, line by line. -/

theorem orphan_cwf {l c : Str} (hnl : NoNl l)
    (h : EnvEntry.tryFrom l = .ok (.OrphanComment c)) : CWF c := by
  have ht := tryFrom_orphan_inv h
  constructor
  · intro hx
    exact hnl (mem_of_mem_trim (ht ▸ List.mem_cons_of_mem '#' hx))
  · have h2 : trimEnd (trim l) = trim l := trim_fix_end (trim_idem l)
    rw [ht] at h2
    exact trimEnd_cons_inv h2

theorem var_vwf {l : Str} {v : EnvVariable} (hnl : NoNl l)
    (h : EnvEntry.tryFrom l = .ok (.Variable v)) : VWF v := by
  obtain ⟨hne, hhash, k, vp, hsplit, hveq⟩ := tryFrom_var_inv h
  obtain ⟨hdec, hknoeq⟩ := splitOnce_eq_some hsplit
  have htfix : trim (trim l) = trim l := trim_idem l
  have hts : trimStart (trim l) = trim l := trim_fix_start htfix
  have hte : trimEnd (trim l) = trim l := trim_fix_end htfix
  have hmemk : ∀ x : Char, x ∈ k → x ∈ l := by
    intro x hx
    exact mem_of_mem_trim (hdec ▸ List.mem_append_left _ hx)
  have hmemvp : ∀ x : Char, x ∈ vp → x ∈ l := by
    intro x hx
    exact mem_of_mem_trim (hdec ▸ List.mem_append_right _ (List.mem_cons_of_mem _ hx))
  have hkeyhead : (trim k).head? ≠ some '#' := by
    cases k with
    | nil => simp [trim, trimStart, trimEnd]
    | cons a kt =>
      have hheadl : (trim l).head? = some a := by rw [hdec]; rfl
      have hwa : isWS a = false := head_not_ws_of_trimStart_fix hts hheadl
      have h1 : trimStart (a :: kt) = a :: kt := trimStart_cons_not_ws hwa
      rcases head?_trim (a :: kt) with h2 | h2
      · rw [h2]; simp
      · rw [h2, h1]
        intro hcon
        simp at hcon
        rw [hcon] at hheadl
        exact hhash hheadl
  have htevp : trimEnd vp = vp := by
    have h2 := hte
    rw [hdec, show k ++ '=' :: vp = (k ++ ['=']) ++ vp by simp] at h2
    exact trimEnd_append_inv h2
  cases hcm : splitOnce '#' vp with
  | some pr =>
    obtain ⟨v0, cm⟩ := pr
    rw [hcm] at hveq
    simp at hveq
    subst hveq
    obtain ⟨hvp, hv0nohash⟩ := splitOnce_eq_some hcm
    constructor
    · exact trim_idem k
    · intro hx
      exact hnl (hmemk _ (mem_of_mem_trim hx))
    · intro hx
      exact hknoeq (mem_of_mem_trim hx)
    · exact hkeyhead
    · exact trim_idem v0
    · intro hx
      exact hnl (hmemvp _ (hvp ▸ List.mem_append_left _ (mem_of_mem_trim hx)))
    · intro hx
      exact hv0nohash (mem_of_mem_trim hx)
    · intro c hc
      simp at hc
      subst hc
      constructor
      · intro hx
        exact hnl (hmemvp _ (hvp ▸ List.mem_append_right _ (List.mem_cons_of_mem _ hx)))
      · have h2 := htevp
        rw [hvp, show v0 ++ '#' :: cm = (v0 ++ ['#']) ++ cm by simp] at h2
        exact trimEnd_append_inv h2
    · intro c hc
      simp at hc
  | none =>
    rw [hcm] at hveq
    simp at hveq
    subst hveq
    constructor
    · exact trim_idem k
    · intro hx
      exact hnl (hmemk _ (mem_of_mem_trim hx))
    · intro hx
      exact hknoeq (mem_of_mem_trim hx)
    · exact hkeyhead
    · exact trim_idem vp
    · intro hx
      exact hnl (hmemvp _ (mem_of_mem_trim hx))
    · intro hx
      exact splitOnce_none_not_mem hcm (mem_of_mem_trim hx)
    · intro c hc
      simp at hc
    · intro c hc
      simp at hc

theorem notVarHead_orphans_append {p : List Str} {q : List EnvEntry}
    (h : notVarHead q) : notVarHead (p.map .OrphanComment ++ q) := by
  cases p with
  | nil => exact h
  | cons c cs => trivial

theorem wfe_orphans_append {p : List Str} {q : List EnvEntry}
    (hp : ∀ c ∈ p, CWF c) (hq : WFE q) (hnv : notVarHead q) :
    WFE (p.map .OrphanComment ++ q) := by
  induction p with
  | nil => exact hq
  | cons c cs ih =>
    rw [List.map_cons, List.cons_append]
    exact WFE.orphan (hp c (List.mem_cons_self c cs))
      (notVarHead_orphans_append hnv)
      (ih fun x hx => hp x (List.mem_cons_of_mem c hx))

theorem parseLines_wfe {ls : List Str} {pending : List Str} {es : List EnvEntry}
    (hls : ∀ l ∈ ls, NoNl l) (hp : ∀ c ∈ pending, CWF c)
    (h : EnvFile.parseLines ls pending = .ok es) : WFE es := by
  induction ls generalizing pending es with
  | nil =>
    rw [EnvFile.parseLines] at h
    cases h
    have h2 := wfe_orphans_append hp WFE.nil (by trivial)
    rwa [List.append_nil] at h2
  | cons l ls ih =>
    have hnl : NoNl l := hls l (List.mem_cons_self l ls)
    have hls2 : ∀ x ∈ ls, NoNl x := fun x hx => hls x (List.mem_cons_of_mem l hx)
    rw [EnvFile.parseLines] at h
    cases he : EnvEntry.tryFrom l with
    | error e => rw [he] at h; cases h
    | ok entry =>
      rw [he] at h
      cases entry with
      | Variable v =>
        cases hrest : EnvFile.parseLines ls [] with
        | error e => rw [hrest] at h; cases h
        | ok rest =>
          rw [hrest] at h
          cases h
          have hv : VWF v := var_vwf hnl he
          exact WFE.var
            ⟨hv.keyTrim, hv.keyNoNl, hv.keyNoEq, hv.keyNoHash, hv.valTrim,
              hv.valNoNl, hv.valNoHash, hv.icWF, fun c hc => hp c hc⟩
            (ih hls2 (by simp) hrest)
      | OrphanComment c =>
        refine ih hls2 ?_ h
        intro x hx
        rcases List.mem_append.mp hx with h1 | h1
        · exact hp x h1
        · simp at h1
          exact h1 ▸ orphan_cwf hnl he
      | EmptyLine =>
        cases hrest : EnvFile.parseLines ls [] with
        | error e => rw [hrest] at h; cases h
        | ok rest =>
          rw [hrest] at h
          cases h
          exact wfe_orphans_append hp (WFE.empty (ih hls2 (by simp) hrest))
            (by trivial)

/-! Re-parsing the lines that Display produces. -/

theorem trimEnd_cons_fix {a : Char} {cs : Str} (h : trimEnd cs = cs)
    (hc : isWS a = false) : trimEnd (a :: cs) = a :: cs := by
  rw [trimEnd, h, hc]
  simp

theorem trimEnd_append_ws {w : Char} (hw : isWS w = true) (u : Str) :
    trimEnd (u ++ [w]) = trimEnd u := by
  induction u with
  | nil => simp [trimEnd, hw]
  | cons x xs ih =>
    rw [List.cons_append, trimEnd, ih]
    rfl

theorem trim_append_ws {w : Char} (hw : isWS w = true) {u : Str}
    (h : trim u = u) : trim (u ++ [w]) = u := by
  cases u with
  | nil => simp [trim, trimStart, trimEnd, hw]
  | cons a us =>
    have hts : trimStart (a :: us) = a :: us := trim_fix_start h
    have hwa : isWS a = false :=
      head_not_ws_of_trimStart_fix hts rfl
    unfold trim
    rw [List.cons_append, trimStart_cons_not_ws hwa, ← List.cons_append,
      trimEnd_append_ws hw, trim_fix_end h]

theorem getLast?_non_ws_of_trimEnd_fix {s : Str} (h : trimEnd s = s) :
    ∀ x, s.getLast? = some x → isWS x = false :=
  fun _ hx => trimEnd_getLast_not_ws (h.symm ▸ hx)

theorem stripCr_of_trimEnd_fix {l : Str} (h : trimEnd l = l) : stripCr l = l := by
  unfold stripCr
  cases hg : l.getLast? with
  | none => simp
  | some x =>
    have := getLast?_non_ws_of_trimEnd_fix h x hg
    have hxr : ¬ x = '\r' := by
      intro hx
      rw [hx] at this
      simp [isWS] at this
    simp [hxr]

theorem commentLine_trimEnd {c : Str} (h : CWF c) :
    trimEnd (EnvComment.display c) = EnvComment.display c :=
  trimEnd_cons_fix h.2 (by decide)

theorem commentLine_no_nl {c : Str} (h : CWF c) : NoNl (EnvComment.display c) := by
  intro hx
  unfold EnvComment.display at hx
  rcases List.mem_cons.mp hx with h1 | h1
  · cases h1
  · exact h.1 h1

theorem commentLine_reparse {c : Str} (h : CWF c) :
    EnvEntry.tryFrom (EnvComment.display c) = .ok (.OrphanComment c) := by
  apply tryFrom_comment_line
  show trim ('#' :: c) = '#' :: c
  unfold trim
  rw [trimStart_cons_not_ws (by decide)]
  exact commentLine_trimEnd h

theorem getLast?_append_cons {α : Type _} (a : List α) (x : α) (b : List α) :
    (a ++ x :: b).getLast? = (x :: b).getLast? :=
  List.getLast?_append_of_ne_nil a (List.cons_ne_nil x b)

theorem varLine_shape_some {v : EnvVariable} {c : Str}
    (hic : v.inline_comment = some c) :
    varLine v = v.key ++ '=' :: (v.value ++ (' ' :: '#' :: c)) := by
  unfold varLine EnvComment.display
  rw [hic]
  simp

theorem varLine_shape_none {v : EnvVariable}
    (hic : v.inline_comment = none) :
    varLine v = v.key ++ '=' :: v.value := by
  unfold varLine
  rw [hic]
  simp

theorem varLine_ne_nil (v : EnvVariable) : varLine v ≠ [] := by
  unfold varLine
  cases hk : v.key with
  | nil => simp
  | cons a kt => simp

theorem varLine_head_not_ws {v : EnvVariable} (h : VWF v) :
    ∀ hd, (varLine v).head? = some hd → isWS hd = false ∧ hd ≠ '#' := by
  intro hd hhd
  unfold varLine at hhd
  cases hk : v.key with
  | nil =>
    rw [hk] at hhd
    simp at hhd
    cases hhd
    exact ⟨by decide, by decide⟩
  | cons a kt =>
    rw [hk] at hhd
    simp at hhd
    have hts : trimStart v.key = v.key := trim_fix_start h.keyTrim
    have hw : isWS a = false :=
      head_not_ws_of_trimStart_fix hts (by rw [hk]; rfl)
    have hah : a ≠ '#' := by
      intro hcon
      apply h.keyNoHash
      rw [hk, hcon]
      rfl
    rw [← hhd]
    exact ⟨hw, hah⟩

theorem varLine_getLast_not_ws {v : EnvVariable} (h : VWF v) :
    ∀ x, (varLine v).getLast? = some x → isWS x = false := by
  intro x hx
  cases hic : v.inline_comment with
  | some c =>
    rw [varLine_shape_some hic, getLast?_append_cons,
      getLast?_cons_ne (by simp), getLast?_append_cons,
      List.getLast?_cons_cons] at hx
    cases hc : c with
    | nil =>
      rw [hc] at hx
      simp at hx
      subst hx
      decide
    | cons b bs =>
      rw [hc, getLast?_cons_ne (by simp)] at hx
      have hcwf : CWF c := h.icWF c hic
      exact getLast?_non_ws_of_trimEnd_fix hcwf.2 x (hc ▸ hx)
  | none =>
    rw [varLine_shape_none hic, getLast?_append_cons] at hx
    cases hval : v.value with
    | nil =>
      rw [hval] at hx
      simp at hx
      subst hx
      decide
    | cons b bs =>
      rw [hval, getLast?_cons_ne (by simp)] at hx
      exact getLast?_non_ws_of_trimEnd_fix (trim_fix_end h.valTrim) x (hval ▸ hx)

theorem varLine_trim_fix {v : EnvVariable} (h : VWF v) :
    trim (varLine v) = varLine v := by
  have hte : trimEnd (varLine v) = varLine v :=
    trimEnd_eq_self_of_getLast (varLine_getLast_not_ws h)
  cases hl : varLine v with
  | nil => exact absurd hl (varLine_ne_nil v)
  | cons a rest =>
    have hw : isWS a = false :=
      (varLine_head_not_ws h a (by rw [hl]; rfl)).1
    unfold trim
    rw [← hl, hl, trimStart_cons_not_ws hw, ← hl, hte]

theorem varLine_no_nl {v : EnvVariable} (h : VWF v) : NoNl (varLine v) := by
  intro hx
  cases hic : v.inline_comment with
  | some c =>
    rw [varLine_shape_some hic] at hx
    rcases List.mem_append.mp hx with h1 | h1
    · exact h.keyNoNl h1
    · rcases List.mem_cons.mp h1 with h2 | h2
      · exact absurd h2 (by decide)
      · rcases List.mem_append.mp h2 with h3 | h3
        · exact h.valNoNl h3
        · rcases List.mem_cons.mp h3 with h4 | h4
          · exact absurd h4 (by decide)
          · rcases List.mem_cons.mp h4 with h5 | h5
            · exact absurd h5 (by decide)
            · exact (h.icWF c hic).1 h5
  | none =>
    rw [varLine_shape_none hic] at hx
    rcases List.mem_append.mp hx with h1 | h1
    · exact h.keyNoNl h1
    · rcases List.mem_cons.mp h1 with h2 | h2
      · exact absurd h2 (by decide)
      · exact h.valNoNl h2

theorem varLine_reparse {v : EnvVariable} (h : VWF v) :
    EnvEntry.tryFrom (varLine v) =
      .ok (.Variable ⟨v.key, v.value, [], v.inline_comment⟩) := by
  have htr : trim (varLine v) = varLine v := varLine_trim_fix h
  have hne : trim (varLine v) ≠ [] := by
    rw [htr]; exact varLine_ne_nil v
  have hhash : (trim (varLine v)).head? ≠ some '#' := by
    rw [htr]
    cases hl : varLine v with
    | nil => exact absurd hl (varLine_ne_nil v)
    | cons a rest =>
      have := (varLine_head_not_ws h a (by rw [hl]; rfl)).2
      simpa using this
  cases hic : v.inline_comment with
  | some c =>
    have hsplit : splitOnce '=' (trim (varLine v)) =
        some (v.key, v.value ++ (' ' :: '#' :: c)) := by
      rw [htr, varLine_shape_some hic]
      exact splitOnce_append h.keyNoEq
    have hcm : splitOnce '#' (v.value ++ (' ' :: '#' :: c)) =
        some (v.value ++ [' '], c) := by
      rw [show v.value ++ (' ' :: '#' :: c) = (v.value ++ [' ']) ++ '#' :: c by simp]
      apply splitOnce_append
      intro hx
      rcases List.mem_append.mp hx with h1 | h1
      · exact h.valNoHash h1
      · simp at h1
    rw [tryFrom_var_line_cm hne hhash hsplit hcm, h.keyTrim,
      trim_append_ws (by decide) h.valTrim]
  | none =>
    have hsplit : splitOnce '=' (trim (varLine v)) = some (v.key, v.value) := by
      rw [htr, varLine_shape_none hic]
      exact splitOnce_append h.keyNoEq
    have hcm : splitOnce '#' v.value = none :=
      splitOnce_of_not_mem h.valNoHash
    rw [tryFrom_var_line_nocm hne hhash hsplit hcm, h.keyTrim, h.valTrim]

/-! From Display output back to physical lines. -/

theorem display_entryLines (e : EnvEntry) :
    EnvEntry.display e = ((entryLines e).map (fun l => l ++ ['\n'])).flatten := by
  cases e with
  | Variable v =>
    show EnvVariable.display v ++ ['\n'] = _
    unfold EnvVariable.display entryLines varLine
    simp
    exact congrArg List.flatten (List.map_congr_left fun c _ => rfl)
  | OrphanComment c => simp [EnvEntry.display, entryLines]
  | EmptyLine => simp [EnvEntry.display, entryLines]

theorem file_display_flat (es : List EnvEntry) :
    EnvFile.display ⟨es⟩ =
      (((es.map entryLines).flatten).map (fun l => l ++ ['\n'])).flatten := by
  induction es with
  | nil => rfl
  | cons e rest ih =>
    show EnvEntry.display e ++ EnvFile.display ⟨rest⟩ = _
    rw [ih, display_entryLines]
    simp

theorem lines_flatten {lls : List Str}
    (h : ∀ l ∈ lls, NoNl l ∧ trimEnd l = l) :
    lines ((lls.map (fun l => l ++ ['\n'])).flatten) = lls := by
  induction lls with
  | nil => rfl
  | cons l rest ih =>
    have hl := h l (List.mem_cons_self l rest)
    rw [List.map_cons, List.flatten_cons,
      show (l ++ ['\n']) ++ ((rest.map (fun l => l ++ ['\n'])).flatten) =
        l ++ '\n' :: ((rest.map (fun l => l ++ ['\n'])).flatten) by simp,
      lines_cons_nl hl.1, stripCr_of_trimEnd_fix hl.2,
      ih fun x hx => h x (List.mem_cons_of_mem l hx)]

theorem wfe_lines_ok {es : List EnvEntry} (h : WFE es) :
    ∀ l ∈ (es.map entryLines).flatten, NoNl l ∧ trimEnd l = l := by
  induction h with
  | nil => simp
  | var hv hrest ih =>
    intro l hl
    rw [List.map_cons, List.flatten_cons] at hl
    rcases List.mem_append.mp hl with h1 | h1
    · unfold entryLines at h1
      rcases List.mem_append.mp h1 with h2 | h2
      · rcases List.mem_map.mp h2 with ⟨c, hc, rfl⟩
        have hcwf : CWF c := hv.pcWF c hc
        exact ⟨commentLine_no_nl hcwf, commentLine_trimEnd hcwf⟩
      · simp at h2
        subst h2
        exact ⟨varLine_no_nl hv, trimEnd_eq_self_of_getLast (varLine_getLast_not_ws hv)⟩
    · exact ih l h1
  | empty hrest ih =>
    intro l hl
    rw [List.map_cons, List.flatten_cons] at hl
    rcases List.mem_append.mp hl with h1 | h1
    · simp [entryLines] at h1
      subst h1
      exact ⟨by simp [NoNl], rfl⟩
    · exact ih l h1
  | orphan hc hnv hrest ih =>
    intro l hl
    rw [List.map_cons, List.flatten_cons] at hl
    rcases List.mem_append.mp hl with h1 | h1
    · simp [entryLines] at h1
      subst h1
      exact ⟨commentLine_no_nl hc, commentLine_trimEnd hc⟩
    · exact ih l h1

theorem lines_display {es : List EnvEntry} (h : WFE es) :
    lines (EnvFile.display ⟨es⟩) = (es.map entryLines).flatten := by
  rw [file_display_flat, lines_flatten (wfe_lines_ok h)]

/-! Per-line classification of Display output. -/

theorem lineClasses_append {xs ys : List Str} {a b : List EnvEntry}
    (hx : lineClasses xs = .ok a) (hy : lineClasses ys = .ok b) :
    lineClasses (xs ++ ys) = .ok (a ++ b) := by
  induction xs generalizing a with
  | nil =>
    cases hx
    simpa using hy
  | cons x xs ih =>
    rw [lineClasses] at hx
    cases he : EnvEntry.tryFrom x with
    | error e =>
      rw [he] at hx
      cases hr : lineClasses xs with
      | error e2 => rw [hr] at hx; cases hx
      | ok es => rw [hr] at hx; cases hx
    | ok entry =>
      rw [he] at hx
      cases hr : lineClasses xs with
      | error e2 => rw [hr] at hx; cases hx
      | ok es =>
        rw [hr] at hx
        cases hx
        rw [List.cons_append, lineClasses, he, ih hr]
        rfl

theorem lineClasses_comments {cs : List Str} (h : ∀ c ∈ cs, CWF c) :
    lineClasses (cs.map EnvComment.display) = .ok (cs.map .OrphanComment) := by
  induction cs with
  | nil => rfl
  | cons c rest ih =>
    rw [List.map_cons, lineClasses,
      commentLine_reparse (h c (List.mem_cons_self c rest)),
      ih fun x hx => h x (List.mem_cons_of_mem c hx), List.map_cons]

theorem entry_lineClasses_var {v : EnvVariable} (h : VWF v) :
    lineClasses (entryLines (.Variable v)) = .ok (entryClasses (.Variable v)) := by
  unfold entryLines entryClasses
  have h1 : lineClasses [varLine v] =
      .ok [.Variable { v with preceding_comments := [] }] := by
    rw [lineClasses, varLine_reparse h, lineClasses]
  exact lineClasses_append (lineClasses_comments h.pcWF) h1

theorem wfe_lineClasses {es : List EnvEntry} (h : WFE es) :
    lineClasses ((es.map entryLines).flatten) =
      .ok ((es.map entryClasses).flatten) := by
  induction h with
  | nil => rfl
  | var hv hrest ih =>
    rw [List.map_cons, List.flatten_cons, List.map_cons, List.flatten_cons]
    exact lineClasses_append (entry_lineClasses_var hv) ih
  | empty hrest ih =>
    rw [List.map_cons, List.flatten_cons, List.map_cons, List.flatten_cons]
    refine lineClasses_append ?_ ih
    show lineClasses [[]] = .ok [.EmptyLine]
    rw [lineClasses, @tryFrom_empty_line [] rfl, lineClasses]
  | @orphan c rest hc hnv hrest ih =>
    rw [List.map_cons, List.flatten_cons, List.map_cons, List.flatten_cons]
    refine lineClasses_append ?_ ih
    show lineClasses [EnvComment.display c] = .ok [.OrphanComment c]
    rw [lineClasses, commentLine_reparse hc, lineClasses]

/-! The pending-comment injector and the declarative attachment. -/

theorem inject_nil_entries (p : List Str) : inject p [] = p.map .OrphanComment := by
  simp [inject]

theorem inject_var (p : List Str) (v : EnvVariable) (rest : List EnvEntry) :
    inject p (.Variable v :: rest) =
      .Variable { v with preceding_comments := p ++ v.preceding_comments } :: rest := rfl

theorem inject_orph (p : List Str) (c : Str) (rest : List EnvEntry) :
    inject p (.OrphanComment c :: rest) =
      p.map .OrphanComment ++ .OrphanComment c :: rest := rfl

theorem inject_emp (p : List Str) (rest : List EnvEntry) :
    inject p (.EmptyLine :: rest) = p.map .OrphanComment ++ .EmptyLine :: rest := rfl

theorem inject_id (es : List EnvEntry) : inject [] es = es := by
  cases es with
  | nil => rfl
  | cons e rest =>
    cases e with
    | Variable v => simp [inject]
    | OrphanComment c => rfl
    | EmptyLine => rfl

theorem inject_snoc (p : List Str) (c : Str) (X : List EnvEntry) :
    inject (p ++ [c]) X =
      inject p (match X with
                | .Variable w :: tail =>
                  .Variable { w with preceding_comments := c :: w.preceding_comments } :: tail
                | other => .OrphanComment c :: other) := by
  cases X with
  | nil => simp [inject]
  | cons e tail =>
    cases e with
    | Variable w => simp [inject]
    | OrphanComment c2 => simp [inject]
    | EmptyLine => simp [inject]

theorem spec_orphan_eq (c : Str) (rest : List EnvEntry) :
    specAttach (.OrphanComment c :: rest) =
      match specAttach rest with
      | .Variable v :: tail =>
        .Variable { v with preceding_comments := c :: v.preceding_comments } :: tail
      | other => .OrphanComment c :: other := by
  rw [specAttach]

theorem parseLines_spec {ls : List Str} {les : List EnvEntry}
    (h : lineClasses ls = .ok les) :
    ∀ p, EnvFile.parseLines ls p = .ok (inject p (specAttach les)) := by
  induction ls generalizing les with
  | nil =>
    cases h
    intro p
    rw [EnvFile.parseLines, show specAttach [] = [] from rfl, inject_nil_entries]
  | cons l ls ih =>
    intro p
    rw [lineClasses] at h
    cases he : EnvEntry.tryFrom l with
    | error e =>
      rw [he] at h
      cases hr : lineClasses ls with
      | error e2 => rw [hr] at h; cases h
      | ok les2 => rw [hr] at h; cases h
    | ok entry =>
      rw [he] at h
      cases hr : lineClasses ls with
      | error e2 => rw [hr] at h; cases h
      | ok les2 =>
        rw [hr] at h
        cases h
        rw [EnvFile.parseLines, he]
        cases entry with
        | Variable v =>
          dsimp only
          rw [ih hr [], inject_id,
            show specAttach (.Variable v :: les2) = .Variable v :: specAttach les2
              from rfl,
            inject_var, tryFrom_var_pcs_nil he]
          simp
        | OrphanComment c =>
          dsimp only
          rw [ih hr (p ++ [c]), inject_snoc, spec_orphan_eq]
        | EmptyLine =>
          dsimp only
          rw [ih hr [], inject_id,
            show specAttach (.EmptyLine :: les2) = .EmptyLine :: specAttach les2
              from rfl,
            inject_emp]

theorem attach_run {cs : List Str} {w : EnvVariable} {X : List EnvEntry} :
    specAttach (cs.map .OrphanComment ++ .Variable w :: X) =
      .Variable { w with preceding_comments := cs ++ w.preceding_comments } ::
        specAttach X := by
  induction cs with
  | nil => simp [specAttach]
  | cons c cs ih =>
    rw [List.map_cons, List.cons_append, spec_orphan_eq, ih]
    simp

theorem specAttach_classJoin {es : List EnvEntry} (h : WFE es) :
    specAttach ((es.map entryClasses).flatten) = es := by
  induction h with
  | nil => rfl
  | @var v rest hv hrest ih =>
    rw [List.map_cons, List.flatten_cons,
      show entryClasses (.Variable v) =
        v.preceding_comments.map .OrphanComment ++
          [.Variable { v with preceding_comments := [] }] from rfl,
      List.append_assoc, List.singleton_append, attach_run, ih]
    simp
  | @empty rest hrest ih =>
    rw [List.map_cons, List.flatten_cons,
      show entryClasses .EmptyLine = [.EmptyLine] from rfl,
      List.singleton_append,
      show specAttach (.EmptyLine :: (rest.map entryClasses).flatten) =
        .EmptyLine :: specAttach ((rest.map entryClasses).flatten) from rfl,
      ih]
  | @orphan c rest hc hnv hrest ih =>
    rw [List.map_cons, List.flatten_cons,
      show entryClasses (.OrphanComment c) = [.OrphanComment c] from rfl,
      List.singleton_append, spec_orphan_eq, ih]
    cases hr : rest with
    | nil => rfl
    | cons e tail =>
      cases e with
      | Variable v =>
        rw [hr] at hnv
        exact hnv.elim
      | OrphanComment c2 => rfl
      | EmptyLine => rfl

theorem tryFrom_ok_inv {s : Str} {D : EnvFile} (h : EnvFile.tryFrom s = .ok D) :
    EnvFile.parseLines (lines s) [] = .ok D.entries := by
  unfold EnvFile.tryFrom at h
  cases hp : EnvFile.parseLines (lines s) [] with
  | error e => rw [hp] at h; cases h
  | ok es => rw [hp] at h; cases h; rfl

theorem roundtrip_aux {s : Str} {D : EnvFile} (h : EnvFile.tryFrom s = .ok D) :
    EnvFile.tryFrom (EnvFile.display D) = .ok D := by
  have hp := tryFrom_ok_inv h
  have hwfe : WFE D.entries :=
    parseLines_wfe (fun l hl => lines_mem_no_nl l hl) (by simp) hp
  have hlines : lines (EnvFile.display D) = (D.entries.map entryLines).flatten :=
    lines_display hwfe
  have h2 : lineClasses (lines (EnvFile.display D)) =
      .ok ((D.entries.map entryClasses).flatten) := by
    rw [hlines]
    exact wfe_lineClasses hwfe
  have h3 := parseLines_spec h2 []
  rw [inject_id, specAttach_classJoin hwfe] at h3
  unfold EnvFile.tryFrom
  rw [h3]

/-! Successful parses classify every line; failing parses and the first
invalid line. -/

theorem parseLines_lineClasses {ls : List Str} {pending : List Str}
    {es : List EnvEntry} (h : EnvFile.parseLines ls pending = .ok es) :
    ∃ les, lineClasses ls = .ok les := by
  induction ls generalizing pending es with
  | nil => exact ⟨[], rfl⟩
  | cons l ls ih =>
    rw [EnvFile.parseLines] at h
    cases he : EnvEntry.tryFrom l with
    | error e => rw [he] at h; cases h
    | ok entry =>
      rw [he] at h
      cases entry with
      | Variable v =>
        cases hr : EnvFile.parseLines ls [] with
        | error e => rw [hr] at h; cases h
        | ok rest =>
          obtain ⟨les, hles⟩ := ih hr
          refine ⟨.Variable v :: les, ?_⟩
          rw [lineClasses, he, hles]
      | OrphanComment c =>
        obtain ⟨les, hles⟩ := ih h
        refine ⟨.OrphanComment c :: les, ?_⟩
        rw [lineClasses, he, hles]
      | EmptyLine =>
        cases hr : EnvFile.parseLines ls [] with
        | error e => rw [hr] at h; cases h
        | ok rest =>
          obtain ⟨les, hles⟩ := ih hr
          refine ⟨.EmptyLine :: les, ?_⟩
          rw [lineClasses, he, hles]

theorem specAttach_of_parse {s : Str} {D : EnvFile}
    (h : EnvFile.tryFrom s = .ok D) :
    ∃ les, lineClasses (lines s) = .ok les ∧ D.entries = specAttach les := by
  have hp := tryFrom_ok_inv h
  obtain ⟨les, hles⟩ := parseLines_lineClasses hp
  have h2 := parseLines_spec hles []
  rw [inject_id] at h2
  exact ⟨les, hles, Except.ok.inj (hp.symm.trans h2)⟩

theorem splitOnce_some_of_mem {a : Char} {s : Str} (h : a ∈ s) :
    ∃ pr : Str × Str, splitOnce a s = some pr := by
  induction s with
  | nil => simp at h
  | cons c cs ih =>
    by_cases hc : c = a
    · exact ⟨([], cs), by rw [splitOnce, if_pos hc]⟩
    · rcases List.mem_cons.mp h with h1 | h1
      · exact absurd h1.symm hc
      · obtain ⟨⟨p, r⟩, hpr⟩ := ih h1
        exact ⟨(c :: p, r), by rw [splitOnce, if_neg hc, hpr]⟩

theorem tryFrom_ok_of_not_bad {l : Str} (h : badLine l = false) :
    ∃ e, EnvEntry.tryFrom l = .ok e := by
  unfold badLine at h
  simp at h
  by_cases hemp : trim l = []
  · exact ⟨.EmptyLine, tryFrom_empty_line hemp⟩
  · by_cases hhash : (trim l).head? = some '#'
    · cases ht : trim l with
      | nil => exact absurd ht hemp
      | cons a rest =>
        rw [ht] at hhash
        simp at hhash
        subst hhash
        exact ⟨.OrphanComment rest, tryFrom_comment_line ht⟩
    · have hmem : '=' ∈ trim l := by
        have := h (by simpa [List.isEmpty_iff] using hemp) hhash
        simpa [List.contains] using this
      obtain ⟨⟨k, vp⟩, hsplit⟩ := splitOnce_some_of_mem hmem
      cases hcm : splitOnce '#' vp with
      | some pr =>
        obtain ⟨v0, cm⟩ := pr
        exact ⟨_, tryFrom_var_line_cm hemp hhash hsplit hcm⟩
      | none =>
        exact ⟨_, tryFrom_var_line_nocm hemp hhash hsplit hcm⟩

theorem tryFrom_error_of_bad {l : Str} (h : badLine l = true) :
    EnvEntry.tryFrom l = .error (.InvalidLine (trim l)) := by
  unfold badLine at h
  simp at h
  obtain ⟨⟨h1, h2⟩, h3⟩ := h
  apply tryFrom_bad_line (by simpa [List.isEmpty_iff] using h1) h2
  exact splitOnce_of_not_mem h3

theorem parseLines_fail_spec (ls : List Str) (p : List Str) :
    match ls.find? badLine with
    | some l => EnvFile.parseLines ls p = .error (.InvalidLine (trim l))
    | none => ∃ es, EnvFile.parseLines ls p = .ok es := by
  induction ls generalizing p with
  | nil => exact ⟨p.map .OrphanComment, rfl⟩
  | cons l ls ih =>
    cases hb : badLine l with
    | true =>
      rw [List.find?_cons_of_pos _ hb]
      rw [EnvFile.parseLines, tryFrom_error_of_bad hb]
    | false =>
      rw [List.find?_cons_of_neg _ (by simp [hb])]
      obtain ⟨e, he⟩ := tryFrom_ok_of_not_bad hb
      cases e with
      | Variable v =>
        have h2 := ih []
        cases hf : ls.find? badLine with
        | some l2 =>
          rw [hf] at h2
          rw [EnvFile.parseLines, he, h2]
        | none =>
          rw [hf] at h2
          obtain ⟨es, hes⟩ := h2
          exact ⟨_, by rw [EnvFile.parseLines, he, hes]⟩
      | OrphanComment c =>
        have h2 := ih (p ++ [c])
        cases hf : ls.find? badLine with
        | some l2 =>
          rw [hf] at h2
          rw [EnvFile.parseLines, he]
          exact h2
        | none =>
          rw [hf] at h2
          obtain ⟨es, hes⟩ := h2
          exact ⟨es, by rw [EnvFile.parseLines, he]; exact hes⟩
      | EmptyLine =>
        have h2 := ih []
        cases hf : ls.find? badLine with
        | some l2 =>
          rw [hf] at h2
          rw [EnvFile.parseLines, he, h2]
        | none =>
          rw [hf] at h2
          obtain ⟨es, hes⟩ := h2
          exact ⟨_, by rw [EnvFile.parseLines, he, hes]⟩

/-! Line-separator normalization. -/

theorem stripCr_of_no_cr {l : Str} (h : '\r' ∉ l) : stripCr l = l := by
  unfold stripCr
  cases hg : l.getLast? with
  | none => simp
  | some x =>
    have hx : x ∈ l := List.mem_of_mem_getLast? hg
    have : ¬ x = '\r' := fun he => h (he ▸ hx)
    simp [this]

theorem sepJoin_cons₂ (sep : Str) (l l2 : Str) (ls : List Str) :
    sepJoin sep (l :: l2 :: ls) = l ++ sep ++ sepJoin sep (l2 :: ls) := rfl

theorem lines_sepJoin_eq {ls : List Str}
    (h : ∀ l ∈ ls, NoNl l ∧ '\r' ∉ l) :
    lines (sepJoin ['\r', '\n'] ls) = lines (sepJoin ['\n'] ls) := by
  induction ls with
  | nil => rfl
  | cons l ls ih =>
    cases ls with
    | nil => rfl
    | cons l2 ls2 =>
      have hl := h l (List.mem_cons_self l _)
      have hrest : ∀ x ∈ l2 :: ls2, NoNl x ∧ '\r' ∉ x :=
        fun x hx => h x (List.mem_cons_of_mem l hx)
      rw [sepJoin_cons₂, sepJoin_cons₂]
      rw [show l ++ ['\r', '\n'] ++ sepJoin ['\r', '\n'] (l2 :: ls2) =
        (l ++ ['\r']) ++ '\n' :: sepJoin ['\r', '\n'] (l2 :: ls2) by simp]
      rw [show l ++ ['\n'] ++ sepJoin ['\n'] (l2 :: ls2) =
        l ++ '\n' :: sepJoin ['\n'] (l2 :: ls2) by simp]
      have hnl2 : ('\n' : Char) ∉ l ++ ['\r'] := by
        intro hx
        rcases List.mem_append.mp hx with h1 | h1
        · exact hl.1 h1
        · simp at h1
      rw [lines_cons_nl hnl2, lines_cons_nl hl.1, ih hrest]
      congr 1
      rw [stripCr_of_no_cr hl.2]
      unfold stripCr
      rw [List.getLast?_concat]
      simp

theorem mem_sepJoin_lf {ls : List Str} {x : Char}
    (h : x ∈ sepJoin ['\n'] ls) : x = '\n' ∨ ∃ l ∈ ls, x ∈ l := by
  induction ls with
  | nil => simp [sepJoin] at h
  | cons l ls ih =>
    cases ls with
    | nil =>
      right
      exact ⟨l, List.mem_cons_self l _, h⟩
    | cons l2 ls2 =>
      rw [sepJoin_cons₂] at h
      rcases List.mem_append.mp h with h1 | h1
      · rcases List.mem_append.mp h1 with h2 | h2
        · exact Or.inr ⟨l, List.mem_cons_self l _, h2⟩
        · simp at h2
          exact Or.inl h2
      · rcases ih h1 with h2 | ⟨l3, hl3, hx3⟩
        · exact Or.inl h2
        · exact Or.inr ⟨l3, List.mem_cons_of_mem l hl3, hx3⟩

theorem orphan_field_subset {l c : Str} {x : Char}
    (h : EnvEntry.tryFrom l = .ok (.OrphanComment c)) (hx : x ∈ c) : x ∈ l := by
  have ht := tryFrom_orphan_inv h
  exact mem_of_mem_trim (ht ▸ List.mem_cons_of_mem '#' hx)

theorem var_field_subset {l : Str} {v : EnvVariable} {x : Char}
    (h : EnvEntry.tryFrom l = .ok (.Variable v)) :
    (x ∈ v.key → x ∈ l) ∧ (x ∈ v.value → x ∈ l) ∧
    (∀ c, v.inline_comment = some c → x ∈ c → x ∈ l) := by
  obtain ⟨hne, hhash, k, vp, hsplit, hveq⟩ := tryFrom_var_inv h
  obtain ⟨hdec, -⟩ := splitOnce_eq_some hsplit
  have hmemk : x ∈ k → x ∈ l := fun hx =>
    mem_of_mem_trim (hdec ▸ List.mem_append_left _ hx)
  have hmemvp : x ∈ vp → x ∈ l := fun hx =>
    mem_of_mem_trim (hdec ▸ List.mem_append_right _ (List.mem_cons_of_mem _ hx))
  cases hcm : splitOnce '#' vp with
  | some pr =>
    obtain ⟨v0, cm⟩ := pr
    rw [hcm] at hveq
    simp at hveq
    subst hveq
    obtain ⟨hvp, -⟩ := splitOnce_eq_some hcm
    refine ⟨fun hx => hmemk (mem_of_mem_trim hx),
      fun hx => hmemvp (hvp ▸ List.mem_append_left _ (mem_of_mem_trim hx)),
      fun c hc hx => ?_⟩
    simp at hc
    subst hc
    exact hmemvp (hvp ▸ List.mem_append_right _ (List.mem_cons_of_mem _ hx))
  | none =>
    rw [hcm] at hveq
    simp at hveq
    subst hveq
    refine ⟨fun hx => hmemk (mem_of_mem_trim hx),
      fun hx => hmemvp (mem_of_mem_trim hx),
      fun c hc hx => ?_⟩
    simp at hc

theorem parseLines_noCr {ls : List Str} {pending : List Str} {es : List EnvEntry}
    (hls : ∀ l ∈ ls, '\r' ∉ l) (hp : ∀ c ∈ pending, '\r' ∉ c)
    (h : EnvFile.parseLines ls pending = .ok es) : ∀ e ∈ es, entryNoCr e := by
  induction ls generalizing pending es with
  | nil =>
    cases h
    intro e he
    rcases List.mem_map.mp he with ⟨c, hc, rfl⟩
    exact hp c hc
  | cons l ls ih =>
    have hl : '\r' ∉ l := hls l (List.mem_cons_self l ls)
    have hls2 : ∀ x ∈ ls, '\r' ∉ x := fun x hx => hls x (List.mem_cons_of_mem l hx)
    rw [EnvFile.parseLines] at h
    cases he : EnvEntry.tryFrom l with
    | error e => rw [he] at h; cases h
    | ok entry =>
      rw [he] at h
      cases entry with
      | Variable v =>
        cases hr : EnvFile.parseLines ls [] with
        | error e => rw [hr] at h; cases h
        | ok rest =>
          rw [hr] at h
          cases h
          intro e hme
          rcases List.mem_cons.mp hme with h1 | h1
          · subst h1
            refine ⟨fun hx => hl ((var_field_subset he).1 hx),
              fun hx => hl ((var_field_subset he).2.1 hx),
              fun c hc hx => hp c hc hx,
              fun c hc hx => hl ((var_field_subset he).2.2 c hc hx)⟩
          · exact ih hls2 (by simp) hr e h1
      | OrphanComment c =>
        refine ih hls2 ?_ h
        intro x hx
        rcases List.mem_append.mp hx with h1 | h1
        · exact hp x h1
        · simp at h1
          subst h1
          exact fun hy => hl (orphan_field_subset he hy)
      | EmptyLine =>
        cases hr : EnvFile.parseLines ls [] with
        | error e => rw [hr] at h; cases h
        | ok rest =>
          rw [hr] at h
          cases h
          intro e hme
          rcases List.mem_append.mp hme with h1 | h1
          · rcases List.mem_map.mp h1 with ⟨c, hc, rfl⟩
            exact hp c hc
          · rcases List.mem_cons.mp h1 with h2 | h2
            · subst h2
              trivial
            · exact ih hls2 (by simp) hr e h2

/-! Serialization is newline-terminating. -/

theorem entry_display_getLast (e : EnvEntry) :
    (EnvEntry.display e).getLast? = some '\n' := by
  cases e with
  | Variable v =>
    show (EnvVariable.display v ++ ['\n']).getLast? = some '\n'
    exact List.getLast?_concat _
  | OrphanComment c =>
    show (EnvComment.display c ++ ['\n']).getLast? = some '\n'
    exact List.getLast?_concat _
  | EmptyLine => rfl

theorem file_display_getLast {es : List EnvEntry} (h : es ≠ []) :
    (EnvFile.display ⟨es⟩).getLast? = some '\n' := by
  induction es with
  | nil => exact absurd rfl h
  | cons e rest ih =>
    show (EnvEntry.display e ++ EnvFile.display ⟨rest⟩).getLast? = some '\n'
    cases hr : rest with
    | nil =>
      show (EnvEntry.display e ++ ([] : Str)).getLast? = some '\n'
      rw [List.append_nil]
      exact entry_display_getLast e
    | cons e2 rest2 =>
      have h2 := ih (by simp [hr])
      rw [hr] at h2
      have hne : EnvFile.display ⟨e2 :: rest2⟩ ≠ [] := by
        intro hnil
        rw [hnil] at h2
        cases h2
      rw [List.getLast?_append_of_ne_nil _ hne]
      exact h2

/-!
The claims.
-/

/-- C1: Round-trip law. For every text the parser accepts, producing the
document D, re-parsing the serialization of D yields D again, so
parse(serialize(parse(text))) equals parse(text) even though serialize
canonicalizes the byte form. -/
theorem C1_roundtrip (s : Str) (D : EnvFile) (h : EnvFile.tryFrom s = .ok D) :
    EnvFile.tryFrom (EnvFile.display D) = .ok D :=
  roundtrip_aux h

/-- Witness for C1 at a concrete accepted text. -/
theorem C1_roundtrip_witness :
    EnvFile.tryFrom
        (EnvFile.display
          ⟨[.Variable ⟨"K".toList, "v".toList, [], some " c".toList⟩,
            .OrphanComment " o".toList]⟩) =
      .ok ⟨[.Variable ⟨"K".toList, "v".toList, [], some " c".toList⟩,
            .OrphanComment " o".toList]⟩ :=
  C1_roundtrip "K=v # c\n# o".toList
    ⟨[.Variable ⟨"K".toList, "v".toList, [], some " c".toList⟩,
      .OrphanComment " o".toList]⟩ (by decide)

/-- C2: Key-set law. The sequence of Variable keys of merge(local,
template) is exactly the sequence of Variable keys of template, so the
key set and multiplicities agree, local-only keys are dropped, and merge
introduces no duplicate keys beyond the template's. -/
theorem C2_keyset (lcl template : EnvFile) :
    (EnvSync.merge lcl template).keys = template.keys :=
  merge_keys lcl template

/-- C3: Override gating. The value of the i-th template Variable is kept
whenever it is non-empty; it is replaced by the first matching local
Variable's value exactly when the template value is empty and that local
value is non-empty. -/
theorem C3_override (lcl t : EnvFile) (i : Nat) (tv : EnvVariable)
    (h : t.entries[i]? = some (.Variable tv)) :
    ∃ rv, (EnvSync.merge lcl t).entries[i]? = some (.Variable rv) ∧
      rv.key = tv.key ∧
      (tv.value ≠ [] → rv.value = tv.value) ∧
      (∀ lv, lcl.get tv.key = some lv → tv.value = [] → lv.value ≠ [] →
        rv.value = lv.value) ∧
      (lcl.get tv.key = none → rv.value = tv.value) ∧
      (∀ lv, lcl.get tv.key = some lv → lv.value = [] → rv.value = tv.value) := by
  refine ⟨EnvSync.syncVar lcl tv, ?_, syncVar_key lcl tv, ?_, ?_, ?_, ?_⟩
  · rw [merge_entries_getElem, h]
    rfl
  · intro hne
    cases hg : lcl.get tv.key with
    | none => rw [syncVar_none hg]
    | some lv =>
      rw [syncVar_some hg]
      have h1 : tv.value.isEmpty = false := by
        cases hv : tv.value
        · exact absurd hv hne
        · rfl
      simp [h1]
  · intro lv hlv hemp hlvne
    rw [syncVar_some hlv]
    have h1 : tv.value.isEmpty = true := by rw [hemp]; rfl
    have h2 : lv.value.isEmpty = false := by
      cases hv : lv.value
      · exact absurd hv hlvne
      · rfl
    simp [h1, h2]
  · intro hg
    rw [syncVar_none hg]
  · intro lv hlv hemp
    rw [syncVar_some hlv]
    have h2 : lv.value.isEmpty = true := by rw [hemp]; rfl
    simp [h2]

/-- Witness for C3 at a concrete template Variable with an empty value
overridden by a non-empty local value. -/
theorem C3_override_witness :
    ∃ rv, (EnvSync.merge ⟨[.Variable ⟨"K".toList, "x".toList, [], none⟩]⟩
        ⟨[.Variable ⟨"K".toList, [], [], none⟩]⟩).entries[0]? =
          some (.Variable rv) ∧
      rv.key = (⟨"K".toList, [], [], none⟩ : EnvVariable).key ∧
      ((⟨"K".toList, [], [], none⟩ : EnvVariable).value ≠ [] →
        rv.value = (⟨"K".toList, [], [], none⟩ : EnvVariable).value) ∧
      (∀ lv, EnvFile.get ⟨[.Variable ⟨"K".toList, "x".toList, [], none⟩]⟩
          (⟨"K".toList, [], [], none⟩ : EnvVariable).key = some lv →
        (⟨"K".toList, [], [], none⟩ : EnvVariable).value = [] →
        lv.value ≠ [] → rv.value = lv.value) ∧
      (EnvFile.get ⟨[.Variable ⟨"K".toList, "x".toList, [], none⟩]⟩
          (⟨"K".toList, [], [], none⟩ : EnvVariable).key = none →
        rv.value = (⟨"K".toList, [], [], none⟩ : EnvVariable).value) ∧
      (∀ lv, EnvFile.get ⟨[.Variable ⟨"K".toList, "x".toList, [], none⟩]⟩
          (⟨"K".toList, [], [], none⟩ : EnvVariable).key = some lv →
        lv.value = [] →
        rv.value = (⟨"K".toList, [], [], none⟩ : EnvVariable).value) :=
  C3_override ⟨[.Variable ⟨"K".toList, "x".toList, [], none⟩]⟩
    ⟨[.Variable ⟨"K".toList, [], [], none⟩]⟩ 0
    ⟨"K".toList, [], [], none⟩ (by decide)

/-- C4 counterexample: the claim fails as stated.  The parser accepts
"K=a\nK=", producing a document D with a duplicate key, and merging D
with itself as template is not a no-op: the second (empty-valued) K
entry picks up the value of the first local match.  This refutes
merge(D, D) == D for every parser-producible D, and with it the claim's
universally quantified idempotence. -/
theorem C4_counterexample :
    EnvFile.tryFrom "K=a\nK=".toList =
      .ok ⟨[.Variable ⟨"K".toList, "a".toList, [], none⟩,
            .Variable ⟨"K".toList, [], [], none⟩]⟩ ∧
    EnvSync.merge
        ⟨[.Variable ⟨"K".toList, "a".toList, [], none⟩,
          .Variable ⟨"K".toList, [], [], none⟩]⟩
        ⟨[.Variable ⟨"K".toList, "a".toList, [], none⟩,
          .Variable ⟨"K".toList, [], [], none⟩]⟩ ≠
      ⟨[.Variable ⟨"K".toList, "a".toList, [], none⟩,
        .Variable ⟨"K".toList, [], [], none⟩]⟩ :=
  ⟨by decide, by decide⟩

/-- C4 amended: idempotent merge holds for templates whose Variable keys
are pairwise distinct: merge(merge(X, t), t) = merge(X, t) for every X,
and merging a duplicate-free document with itself is a no-op. -/
theorem C4_idempotent :
    (∀ X t : EnvFile, t.keys.Nodup →
      EnvSync.merge (EnvSync.merge X t) t = EnvSync.merge X t) ∧
    (∀ D : EnvFile, D.keys.Nodup → EnvSync.merge D D = D) :=
  ⟨fun X t h => merge_idem X t h, fun _ h => merge_self h⟩

/-- Witness for C4 amended at concrete duplicate-free documents. -/
theorem C4_idempotent_witness :
    EnvSync.merge
        (EnvSync.merge ⟨[.Variable ⟨"A".toList, "x".toList, [], none⟩]⟩
          ⟨[.Variable ⟨"A".toList, [], [], none⟩, .EmptyLine]⟩)
        ⟨[.Variable ⟨"A".toList, [], [], none⟩, .EmptyLine]⟩ =
      EnvSync.merge ⟨[.Variable ⟨"A".toList, "x".toList, [], none⟩]⟩
        ⟨[.Variable ⟨"A".toList, [], [], none⟩, .EmptyLine]⟩ ∧
    EnvSync.merge ⟨[.Variable ⟨"B".toList, "y".toList, [], none⟩]⟩
        ⟨[.Variable ⟨"B".toList, "y".toList, [], none⟩]⟩ =
      ⟨[.Variable ⟨"B".toList, "y".toList, [], none⟩]⟩ :=
  ⟨C4_idempotent.1 ⟨[.Variable ⟨"A".toList, "x".toList, [], none⟩]⟩
      ⟨[.Variable ⟨"A".toList, [], [], none⟩, .EmptyLine]⟩ (by decide),
    C4_idempotent.2 ⟨[.Variable ⟨"B".toList, "y".toList, [], none⟩]⟩ (by decide)⟩

/-- C5 counterexample: the claim fails as stated.  On a text whose only
line is invalid but carries surrounding whitespace, the error holds the
trimmed line, not the raw line text. -/
theorem C5_counterexample :
    EnvFile.tryFrom "  oops oops".toList =
      .error (.InvalidLine "oops oops".toList) ∧
    EnvFile.tryFrom "  oops oops".toList ≠
      .error (.InvalidLine "  oops oops".toList) :=
  ⟨by decide, by decide⟩

/-- C5 amended: parse fails exactly when some line is, after trimming,
non-empty, not a comment, and without an assignment operator; the error
is InvalidLine carrying the TRIMMED text of the first such line, the
failure aborts the whole parse, and otherwise a document is returned. -/
theorem C5_failure (s : Str) :
    match (lines s).find? badLine with
    | some l => EnvFile.tryFrom s = .error (.InvalidLine (trim l))
    | none => ∃ D, EnvFile.tryFrom s = .ok D := by
  have h := parseLines_fail_spec (lines s) []
  cases hf : (lines s).find? badLine with
  | some l =>
    rw [hf] at h
    unfold EnvFile.tryFrom
    rw [h]
  | none =>
    rw [hf] at h
    obtain ⟨es, hes⟩ := h
    exact ⟨⟨es⟩, by unfold EnvFile.tryFrom; rw [hes]⟩

/-- C6 counterexample: the claim fails as stated.  The inline comment
text is not stripped of its leading whitespace: the remainder after the
marker is stored verbatim. -/
theorem C6_counterexample :
    EnvEntry.tryFrom "K=v #  c".toList =
      .ok (.Variable ⟨"K".toList, "v".toList, [], some "  c".toList⟩) ∧
    trim "  c".toList ≠ "  c".toList :=
  ⟨by decide, by decide⟩

/-- C6 amended: a line whose trimmed form decomposes as key, first
assignment operator, value-part (so later '=' stay in the value-part)
parses into the trimmed key and, at the first comment marker of the
value-part if any, the trimmed value and the UNtrimmed comment remainder
(only the whole-line trim removed its trailing whitespace); without a
marker the whole value-part is the trimmed value, so a bare KEY= (value
only whitespace) yields the empty value and no inline comment. -/
theorem C6_extraction (l k vp : Str)
    (hhash : (trim l).head? ≠ some '#')
    (hdec : trim l = k ++ '=' :: vp) (hk : '=' ∉ k) :
    ('#' ∉ vp →
      EnvEntry.tryFrom l = .ok (.Variable ⟨trim k, trim vp, [], none⟩)) ∧
    (∀ v0 cm, vp = v0 ++ '#' :: cm → '#' ∉ v0 →
      EnvEntry.tryFrom l = .ok (.Variable ⟨trim k, trim v0, [], some cm⟩)) := by
  have hne : trim l ≠ [] := by
    rw [hdec]
    cases k <;> simp
  have hsplit : splitOnce '=' (trim l) = some (k, vp) := by
    rw [hdec]
    exact splitOnce_append hk
  constructor
  · intro hnh
    exact tryFrom_var_line_nocm hne hhash hsplit (splitOnce_of_not_mem hnh)
  · intro v0 cm hvp hnh
    refine tryFrom_var_line_cm hne hhash hsplit ?_
    rw [hvp]
    exact splitOnce_append hnh

/-- Witness for C6 amended at a concrete line with an inline comment
whose text keeps its leading whitespace. -/
theorem C6_extraction_witness :
    (('#' : Char) ∉ "v #  c".toList →
      EnvEntry.tryFrom "K=v #  c".toList =
        .ok (.Variable ⟨trim "K".toList, trim "v #  c".toList, [], none⟩)) ∧
    (∀ v0 cm, "v #  c".toList = v0 ++ '#' :: cm → '#' ∉ v0 →
      EnvEntry.tryFrom "K=v #  c".toList =
        .ok (.Variable ⟨trim "K".toList, trim v0, [], some cm⟩)) :=
  C6_extraction "K=v #  c".toList "K".toList "v #  c".toList
    (by decide) (by decide) (by decide)

/-- C7: Comment attachment and orphaning.  For every accepted text, the
document equals the declarative attachment policy applied to the
per-line classification: each Variable receives exactly the maximal run
of comment lines immediately above it, and a comment run cut off by a
blank line or end of input stays as one OrphanComment per line at that
position, never dropped. -/
theorem C7_attachment (s : Str) (D : EnvFile) (h : EnvFile.tryFrom s = .ok D) :
    ∃ les, lineClasses (lines s) = .ok les ∧ D.entries = specAttach les :=
  specAttach_of_parse h

/-- Witness for C7 at a concrete text with an orphaned comment run. -/
theorem C7_attachment_witness :
    ∃ les, lineClasses (lines "# a\n\nK=b".toList) = .ok les ∧
      (⟨[.OrphanComment " a".toList, .EmptyLine,
         .Variable ⟨"K".toList, "b".toList, [], none⟩]⟩ : EnvFile).entries =
        specAttach les :=
  C7_attachment "# a\n\nK=b".toList
    ⟨[.OrphanComment " a".toList, .EmptyLine,
      .Variable ⟨"K".toList, "b".toList, [], none⟩]⟩ (by decide)

/-- C8: Merge frame and totality.  EnvSync::sync never returns an error
(it is Ok of the pure merge on every input pair); OrphanComment and
EmptyLine template entries appear unchanged at their positions; a
template Variable whose key has no local match passes through entirely
unchanged. -/
theorem C8_frame :
    (∀ lcl t : EnvFile, EnvSync.sync lcl t = .ok (EnvSync.merge lcl t)) ∧
    (∀ (lcl t : EnvFile) (i : Nat) (c : Str),
      t.entries[i]? = some (.OrphanComment c) →
      (EnvSync.merge lcl t).entries[i]? = some (.OrphanComment c)) ∧
    (∀ (lcl t : EnvFile) (i : Nat),
      t.entries[i]? = some .EmptyLine →
      (EnvSync.merge lcl t).entries[i]? = some .EmptyLine) ∧
    (∀ (lcl t : EnvFile) (i : Nat) (tv : EnvVariable),
      t.entries[i]? = some (.Variable tv) → lcl.get tv.key = none →
      (EnvSync.merge lcl t).entries[i]? = some (.Variable tv)) := by
  refine ⟨fun lcl t => rfl, ?_, ?_, ?_⟩
  · intro lcl t i c h
    rw [merge_entries_getElem, h]
    rfl
  · intro lcl t i h
    rw [merge_entries_getElem, h]
    rfl
  · intro lcl t i tv h hg
    rw [merge_entries_getElem, h]
    show some (EnvEntry.Variable (EnvSync.syncVar lcl tv)) = _
    rw [syncVar_none hg]

/-- Witness for C8 at concrete documents. -/
theorem C8_frame_witness :
    EnvSync.sync ⟨[]⟩ ⟨[.EmptyLine]⟩ = .ok (EnvSync.merge ⟨[]⟩ ⟨[.EmptyLine]⟩) ∧
    (EnvSync.merge ⟨[.Variable ⟨"A".toList, "x".toList, [], none⟩]⟩
        ⟨[.OrphanComment " c".toList]⟩).entries[0]? =
      some (.OrphanComment " c".toList) ∧
    (EnvSync.merge ⟨[.Variable ⟨"A".toList, "x".toList, [], none⟩]⟩
        ⟨[.EmptyLine]⟩).entries[0]? = some .EmptyLine ∧
    (EnvSync.merge ⟨[.Variable ⟨"A".toList, "x".toList, [], none⟩]⟩
        ⟨[.Variable ⟨"B".toList, [], [], some " i".toList⟩]⟩).entries[0]? =
      some (.Variable ⟨"B".toList, [], [], some " i".toList⟩) :=
  ⟨C8_frame.1 ⟨[]⟩ ⟨[.EmptyLine]⟩,
    C8_frame.2.1 ⟨[.Variable ⟨"A".toList, "x".toList, [], none⟩]⟩
      ⟨[.OrphanComment " c".toList]⟩ 0 " c".toList (by decide),
    C8_frame.2.2.1 ⟨[.Variable ⟨"A".toList, "x".toList, [], none⟩]⟩
      ⟨[.EmptyLine]⟩ 0 (by decide),
    C8_frame.2.2.2 ⟨[.Variable ⟨"A".toList, "x".toList, [], none⟩]⟩
      ⟨[.Variable ⟨"B".toList, [], [], some " i".toList⟩]⟩ 0
      ⟨"B".toList, [], [], some " i".toList⟩ (by decide) (by decide)⟩

/-- C9: Line-separator normalization.  Joining the same newline-free,
carriage-return-free line contents with CRLF or with LF parses to the
same document, and no parsed key, value or comment of the CRLF parse
contains a carriage return. -/
theorem C9_crlf (ls : List Str) (h : ∀ l ∈ ls, NoNl l ∧ '\r' ∉ l) :
    EnvFile.tryFrom (sepJoin ['\r', '\n'] ls) =
      EnvFile.tryFrom (sepJoin ['\n'] ls) ∧
    (∀ D, EnvFile.tryFrom (sepJoin ['\r', '\n'] ls) = .ok D →
      ∀ e ∈ D.entries, entryNoCr e) := by
  have hl := lines_sepJoin_eq h
  constructor
  · unfold EnvFile.tryFrom
    rw [hl]
  · intro D hD
    have hp := tryFrom_ok_inv hD
    refine parseLines_noCr ?_ (by simp) hp
    intro l hlm hx
    rw [hl] at hlm
    rcases mem_sepJoin_lf (lines_mem_subset hlm hx) with h1 | ⟨l2, hl2, hx2⟩
    · exact absurd h1 (by decide)
    · exact (h l2 hl2).2 hx2

/-- Witness for C9 at concrete line contents. -/
theorem C9_crlf_witness :
    EnvFile.tryFrom (sepJoin ['\r', '\n'] ["A=1".toList, "# x".toList]) =
      EnvFile.tryFrom (sepJoin ['\n'] ["A=1".toList, "# x".toList]) ∧
    (∀ D, EnvFile.tryFrom (sepJoin ['\r', '\n'] ["A=1".toList, "# x".toList]) =
        .ok D → ∀ e ∈ D.entries, entryNoCr e) :=
  C9_crlf ["A=1".toList, "# x".toList] (by decide)

/-- C10: Serialization is newline-terminating.  Every entry renders with
a terminating newline, the empty document renders as the empty string,
and every non-empty document's serialization ends with a newline. -/
theorem C10_trailing_newline :
    (∀ e : EnvEntry, (EnvEntry.display e).getLast? = some '\n') ∧
    EnvFile.display ⟨[]⟩ = [] ∧
    (∀ D : EnvFile, D.entries ≠ [] →
      (EnvFile.display D).getLast? = some '\n') := by
  refine ⟨entry_display_getLast, rfl, ?_⟩
  intro D h
  exact file_display_getLast h

/-- Witness for C10 at a concrete non-empty document. -/
theorem C10_trailing_newline_witness :
    (EnvEntry.display (.OrphanComment " z".toList)).getLast? = some '\n' ∧
    EnvFile.display ⟨[]⟩ = [] ∧
    (EnvFile.display ⟨[.Variable ⟨"A".toList, "1".toList, [], none⟩]⟩).getLast? =
      some '\n' :=
  ⟨C10_trailing_newline.1 (.OrphanComment " z".toList),
    C10_trailing_newline.2.1,
    C10_trailing_newline.2.2 ⟨[.Variable ⟨"A".toList, "1".toList, [], none⟩]⟩
      (by decide)⟩
